import Mathlib

set_option maxHeartbeats 1000000

/-!
Verification of the environment-resolution and caching engine of the
proton-prefix-manager repository, as a shallow embedding in Lean.

The KV-format codec (the external keyvalues-parser crate: the `Vdf` document
tree, `Vdf::parse` and its `Display` rendering) is not part of the repository
sources, so it is modelled from the spec (sections 4.1 and 9): documents are a
tagged-variant tree of quoted string keys mapping to quoted strings or nested
blocks (an ordered multimap, duplicate keys merging into one entry holding a
list of values), with whitespace-insensitive parsing, backslash escapes inside
quoted strings, and a canonical indented rendering.  Everything layered on top
(the updaters, parsers, caches, search and repair logic) is translated
directly from the Rust sources in src/.
-/

namespace PPM

/-- Modelled from the spec: the tagged-variant document tree of the KV codec
(spec section 9: Str or Object of an ordered map from key to list of variant),
mirroring the keyvalues-parser crate's Value type whose Obj is an insertion
ordered multimap from keys to nonempty value vectors. -/
inductive VValue where
  | str (s : String)
  | obj (entries : List (String × List VValue))
deriving Repr

/-- Entries of a KV object: insertion-ordered association list from keys to
value lists, modelling the crate's IndexMap-backed Obj. -/
abbrev Entries := List (String × List VValue)

/-- A top-level KV document: the outermost key together with its value,
modelling the crate's Vdf struct. -/
structure Vdf where
  key : String
  value : VValue
deriving Repr

/-! Well-formedness: every key's value list is nonempty and keys at each level
are pairwise distinct, which is the invariant the crate's IndexMap
representation guarantees structurally. -/

mutual

def wfV : VValue → Bool
  | .str _ => true
  | .obj es => wfE es

def wfE : Entries → Bool
  | [] => true
  | (k, vs) :: rest => (!vs.isEmpty) && wfVs vs && !(rest.any (fun p => p.1 == k)) && wfE rest

def wfVs : List VValue → Bool
  | [] => true
  | v :: vs => wfV v && wfVs vs

end

/-- Well-formedness of a whole document. -/
def wfVdf (x : Vdf) : Bool := wfV x.value

/-! The lexer.  Modelled from the spec: tokens are quoted strings (with the
four backslash escapes for newline, tab, backslash and quote) and the two
block delimiters; whitespace between tokens is skipped; any other character
is a lexing error. -/

/-- Tokens of the KV text format. -/
inductive Tok where
  | str (s : String)
  | lb
  | rb
deriving Repr, DecidableEq

/-- ASCII whitespace accepted between tokens. -/
def isWsChar (c : Char) : Bool := c == ' ' || c == '\t' || c == '\n' || c == '\r'

/-- Resolution of a backslash escape inside a quoted string. -/
def unescChar (c : Char) : Option Char :=
  if c = 'n' then some '\n'
  else if c = 't' then some '\t'
  else if c = '\\' then some '\\'
  else if c = '\"' then some '\"'
  else none

/-- Lexer modes: between tokens, inside a quoted string, right after a
backslash inside a quoted string, or in a failed state. -/
inductive LexMode where
  | normal
  | instr (acc : List Char)
  | esc (acc : List Char)
  | err
deriving Repr

/-- One step of the lexer state machine. -/
def lexStep : LexMode × List Tok → Char → LexMode × List Tok
  | (.normal, ts), c =>
    if isWsChar c then (.normal, ts)
    else if c = '\"' then (.instr [], ts)
    else if c = '\x7b' then (.normal, ts ++ [.lb])
    else if c = '\x7d' then (.normal, ts ++ [.rb])
    else (.err, ts)
  | (.instr acc, ts), c =>
    if c = '\"' then (.normal, ts ++ [.str (String.mk acc)])
    else if c = '\\' then (.esc acc, ts)
    else (.instr (acc ++ [c]), ts)
  | (.esc acc, ts), c =>
    match unescChar c with
    | some c' => (.instr (acc ++ [c']), ts)
    | none => (.err, ts)
  | (.err, ts), _ => (.err, ts)

/-- Lex a whole input; succeeds only when the input ends between tokens. -/
def lex (s : String) : Option (List Tok) :=
  match s.data.foldl lexStep (.normal, []) with
  | (.normal, ts) => some ts
  | _ => none

/-! The renderer, mirroring the crate's Display implementation: each pair on
its own line, tab indentation by depth, string values separated from their key
by two tabs, nested blocks in braces, all strings quoted with the four
escapes. -/

/-- Escape one character for quoted output. -/
def escChar (c : Char) : List Char :=
  if c = '\n' then ['\\', 'n']
  else if c = '\t' then ['\\', 't']
  else if c = '\\' then ['\\', '\\']
  else if c = '\"' then ['\\', '\"']
  else [c]

/-- Escape a string for quoted output. -/
def escString (s : String) : List Char := s.data.foldr (fun c r => escChar c ++ r) []

/-- A quoted, escaped token. -/
def quoteTok (s : String) : List Char := '\"' :: (escString s ++ ['\"'])

/-- Indentation: one tab per depth level. -/
def tabs : Nat → List Char
  | 0 => []
  | n + 1 => '\t' :: tabs n

mutual

def renderPair (ind : Nat) (k : String) : VValue → List Char
  | .str s => tabs ind ++ quoteTok k ++ '\t' :: '\t' :: (quoteTok s ++ ['\n'])
  | .obj es =>
      tabs ind ++ quoteTok k ++ '\n' :: (tabs ind ++ '\x7b' :: '\n' ::
        (renderEntries (ind + 1) es ++ tabs ind ++ ['\x7d', '\n']))

def renderEntries (ind : Nat) : Entries → List Char
  | [] => []
  | (k, vs) :: rest => renderVals ind k vs ++ renderEntries ind rest

def renderVals (ind : Nat) (k : String) : List VValue → List Char
  | [] => []
  | v :: vs => renderPair ind k v ++ renderVals ind k vs

end

/-- Render a whole document, as the crate's Display instance does. -/
def renderVdf (x : Vdf) : String := String.mk (renderPair 0 x.key x.value)

/-! The token stream of a document, used to relate renderer and parser. -/

mutual

def toksVal : VValue → List Tok
  | .str s => [.str s]
  | .obj es => .lb :: (toksEntries es ++ [.rb])

def toksEntries : Entries → List Tok
  | [] => []
  | (k, vs) :: rest => toksVals k vs ++ toksEntries rest

def toksVals (k : String) : List VValue → List Tok
  | [] => []
  | v :: vs => (.str k :: toksVal v) ++ toksVals k vs

end

/-! The token parser.  Duplicate keys are merged into the entry of their first
occurrence, appending to its value list, exactly as the crate's IndexMap
insertion does. -/

/-- Add one parsed pair to grouped entries: append to an existing key's value
list, otherwise append a fresh entry at the end. -/
def addPair (acc : Entries) (k : String) (v : VValue) : Entries :=
  match acc with
  | [] => [(k, [v])]
  | (k', vs) :: rest => if k' = k then (k', vs ++ [v]) :: rest else (k', vs) :: addPair rest k v

/-- Group a flat pair list into ordered multimap entries. -/
def groupPairs (ps : List (String × VValue)) : Entries :=
  ps.foldl (fun acc p => addPair acc p.1 p.2) []

/-- Flatten grouped entries back into the pair list their rendering yields. -/
def flatPairs (es : Entries) : List (String × VValue) :=
  (es.map (fun p => p.2.map (fun v => (p.1, v)))).flatten

mutual

def parseValue : Nat → List Tok → Option (VValue × List Tok)
  | _, .str s :: ts => some (.str s, ts)
  | f + 1, .lb :: ts =>
    match parsePairs f ts with
    | some (ps, ts') => some (.obj (groupPairs ps), ts')
    | none => none
  | _, _ => none

def parsePairs : Nat → List Tok → Option (List (String × VValue) × List Tok)
  | _, .rb :: ts => some ([], ts)
  | f + 1, .str k :: ts =>
    match parseValue f ts with
    | some (v, ts') =>
      match parsePairs f ts' with
      | some (ps, ts'') => some ((k, v) :: ps, ts'')
      | none => none
    | none => none
  | _, _ => none

end

/-- Modelled from the spec: parse of a whole document (the crate's Vdf parse):
a single top-level pair consuming the entire input. -/
def parseVdf (s : String) : Option Vdf :=
  match lex s with
  | none => none
  | some ts =>
    match ts with
    | .str k :: rest =>
      match parseValue rest.length rest with
      | some (v, []) => some ⟨k, v⟩
      | _ => none
    | _ => none

/-! Ordered-multimap operations on entries, mirroring the IndexMap operations
the Rust updaters use. -/

/-- Value list of the first entry with the given key (IndexMap get). -/
def getEntry : Entries → String → Option (List VValue)
  | [], _ => none
  | (k', vs) :: rest, k => if k' = k then some vs else getEntry rest k

/-- Replace the head of a value list, leaving an empty list unchanged. -/
def setHead : List VValue → VValue → List VValue
  | [], _ => []
  | _ :: vs, v => v :: vs

/-- Replace the first value of the given key's entry (mutation through a
first_mut reference in the Rust code). -/
def setFirstVal : Entries → String → VValue → Entries
  | [], _, _ => []
  | (k', vs) :: rest, k, v =>
    if k' = k then (k', setHead vs v) :: rest else (k', vs) :: setFirstVal rest k v

/-- IndexMap insert: replace the value list in place when the key exists,
otherwise append a fresh entry at the end. -/
def insertEntry : Entries → String → List VValue → Entries
  | [], k, vs => [(k, vs)]
  | (k', vs') :: rest, k, vs =>
    if k' = k then (k', vs) :: rest else (k', vs') :: insertEntry rest k vs

/-- IndexMap swap remove: delete the first entry with the given key and move
the final entry into the hole it leaves. -/
def swapRemove : Entries → String → Entries
  | [], _ => []
  | (k', vs) :: rest, k =>
    if k' = k then
      match rest.getLast? with
      | none => []
      | some e => e :: rest.dropLast
    else (k', vs) :: swapRemove rest k

/-! The updaters, translated from src/src/utils/user_config.rs.  The chained
entry(..).or_insert(..).first_mut().and_then(get_mut_obj).unwrap() walk panics
when an intermediate key is present whose first value is not an object (or
whose value list is empty); a panic is modelled as the updater returning
none. -/

/-- Walk (or create) the nested hierarchy along the given keys and apply the
final operation to the object at the end, reinstalling the updated objects on
the way out.  Returns none where the Rust unwrap would panic. -/
def descend (o : Entries) (ks : List String) (f : Entries → Option Entries) : Option Entries :=
  match ks with
  | [] => f o
  | k :: ks' =>
    match getEntry o k with
    | some (.obj inner :: _) =>
      (descend inner ks' f).map (fun inner' => setFirstVal o k (.obj inner'))
    | some _ => none
    | none => (descend [] ks' f).map (fun inner' => o ++ [(k, [.obj inner'])])

/-- The LaunchOptions write at the app object: overwrite the first value when
it is a string, silently do nothing when it is an object, insert the key
otherwise. -/
def setLaunchAt (value : String) (o : Entries) : Option Entries :=
  match getEntry o "LaunchOptions" with
  | some (.str _ :: _) => some (setFirstVal o "LaunchOptions" (.str value))
  | some (.obj _ :: _) => some o
  | some [] => some (insertEntry o "LaunchOptions" [.str value])
  | none => some (o ++ [("LaunchOptions", [.str value])])

/-- The compat-tool write at the app object: set the name field the same way
LaunchOptions is set, then default the config and priority fields when
absent. -/
def setCompatAt (tool : String) (o : Entries) : Option Entries :=
  let o1 :=
    match getEntry o "name" with
    | some (.str _ :: _) => setFirstVal o "name" (.str tool)
    | some (.obj _ :: _) => o
    | some [] => insertEntry o "name" [.str tool]
    | none => o ++ [("name", [.str tool])]
  let o2 := if (getEntry o1 "config").isNone then o1 ++ [("config", [.str ""])] else o1
  let o3 := if (getEntry o2 "priority").isNone then o2 ++ [("priority", [.str "0"])] else o2
  some o3

/-- Fallback document used when parsing the existing contents fails. -/
def fallbackVdf : Vdf := ⟨"UserLocalConfigStore", .obj []⟩

/-- Parse the contents or fall back to an empty UserLocalConfigStore document,
then coerce a non-object top value to an empty object, as the updaters do. -/
def parseOrDefault (contents : String) : Vdf :=
  let x := match parseVdf contents with
    | some x => x
    | none => fallbackVdf
  match x.value with
  | .obj _ => x
  | .str _ => ⟨x.key, .obj []⟩

/-- Resolve the wrapper-key convention: when the root object holds a
UserLocalConfigStore key whose first value is an object, operate inside it,
otherwise operate on the root directly.  Returns the inner object when the
wrapper applies. -/
def innerWrapper (root : Entries) : Option Entries :=
  match getEntry root "UserLocalConfigStore" with
  | some (.obj inner :: _) => some inner
  | _ => none

/-- Run an object update under the wrapper-key convention and reinstall the
result. -/
def updateAtRoot (x : Vdf) (upd : Entries → Option Entries) : Option Vdf :=
  let root := match x.value with
    | .obj es => es
    | .str _ => []
  match innerWrapper root with
  | some inner =>
    (upd inner).map (fun inner' => ⟨x.key, .obj (setFirstVal root "UserLocalConfigStore" (.obj inner'))⟩)
  | none => (upd root).map (fun root' => ⟨x.key, .obj root'⟩)

/-- Translation of update_launch_options from src/src/utils/user_config.rs,
operating at the document level; none models the Rust panic. -/
def updateLaunchOptionsVdf (x : Vdf) (appId : Nat) (value : String) : Option Vdf :=
  updateAtRoot x (fun o =>
    descend o ["Software", "Valve", "Steam", "apps", toString appId] (setLaunchAt value))

/-- Translation of update_launch_options at the text level: parse or fall
back, update, then render. -/
def updateLaunchOptions (contents : String) (appId : Nat) (value : String) : Option String :=
  (updateLaunchOptionsVdf (parseOrDefault contents) appId value).map renderVdf

/-- Translation of update_compat_tool at the document level: with a tool the
app entry is created or updated; with none the app entry is swap-removed from
the CompatToolOverrides object (the walk down still creating the chain). -/
def updateCompatToolVdf (x : Vdf) (appId : Nat) (value : Option String) : Option Vdf :=
  updateAtRoot x (fun o =>
    match value with
    | some tool =>
      descend o ["Software", "Valve", "Steam", "CompatToolOverrides", toString appId] (setCompatAt tool)
    | none =>
      descend o ["Software", "Valve", "Steam", "CompatToolOverrides"]
        (fun inner => some (swapRemove inner (toString appId))))

/-- Translation of update_compat_tool at the text level. -/
def updateCompatTool (contents : String) (appId : Nat) (value : Option String) : Option String :=
  (updateCompatToolVdf (parseOrDefault contents) appId value).map renderVdf

/-! The read path, translated from parse_launch_options. -/

/-- Follow the keys downward reading first values that are objects, as the
chained get(..)?.first()?.get_obj()? calls do. -/
def getObjAt (o : Entries) : List String → Option Entries
  | [] => some o
  | k :: ks =>
    match getEntry o k with
    | some (.obj inner :: _) => getObjAt inner ks
    | _ => none

/-- Translation of parse_launch_options from src/src/utils/user_config.rs. -/
def parseLaunchOptions (contents : String) (appId : Nat) : Option String :=
  match parseVdf contents with
  | none => none
  | some x =>
    match x.value with
    | .str _ => none
    | .obj root =>
      let root' := match innerWrapper root with
        | some inner => inner
        | none => root
      match getObjAt root' ["Software", "Valve", "Steam", "apps", toString appId] with
      | none => none
      | some appObj =>
        match getEntry appObj "LaunchOptions" with
        | some (.str s :: _) => some s
        | _ => none

/-- Whether the object reached by the given keys already holds a
LaunchOptions entry whose first value is a nested object. -/
def blockedAt (o : Entries) (ks : List String) : Bool :=
  match getObjAt o ks with
  | none => false
  | some appObj =>
    match getEntry appObj "LaunchOptions" with
    | some (.obj _ :: _) => true
    | _ => false

/-- The one situation in which a completed update_launch_options leaves the
value unwritten: the app object already holds a LaunchOptions key whose first
value is a nested object. -/
def launchSlotBlocked (x : Vdf) (appId : Nat) : Bool :=
  let root := match x.value with
    | .obj es => es
    | .str _ => []
  let root' := match innerWrapper root with
    | some inner => inner
    | none => root
  blockedAt root' ["Software", "Valve", "Steam", "apps", toString appId]

/-! The identity resolver, translated from src/src/utils/user_config.rs. -/

/-- Translation of Rust u64 string parsing: an optional leading plus sign,
one or more ASCII digits, and a value below 2^64. -/
def parseU64 (s : String) : Option Nat :=
  let cs := match s.data with
    | '+' :: t => t
    | cs => cs
  if cs.isEmpty then none
  else if cs.all Char.isDigit then
    let v := cs.foldl (fun a c => a * 10 + (c.toNat - 48)) 0
    if v < 2 ^ 64 then some v else none
  else none

/-- Translation of steamid_to_accountid: keep the low 32 bits of the 64-bit
identifier. -/
def steamidToAccountid (uid : String) : Option String :=
  (parseU64 uid).map (fun v => toString (v % 2 ^ 32))

/-- Locate the users object of a loginusers document, handling both the
wrapped and the unwrapped convention. -/
def usersObjOf (x : Vdf) : Option Entries :=
  if x.key = "users" then
    match x.value with
    | .obj o => some o
    | .str _ => none
  else
    match x.value with
    | .obj o =>
      match getEntry o "users" with
      | some (.obj u :: _) => some u
      | _ => none
    | .str _ => none

/-- Whether a login-history entry carries MostRecent equal to the string 1. -/
def entryFlagged (e : String × List VValue) : Bool :=
  match e.2 with
  | .obj u :: _ =>
    match getEntry u "MostRecent" with
    | some (.str m :: _) => m == "1"
    | _ => false
  | _ => false

/-- Scan login-history entries in order for the first one flagged most
recent, returning its narrowed identifier (or the raw identifier when
narrowing fails). -/
def findFlagged : Entries → Option String
  | [] => none
  | (uid, vs) :: rest =>
    if entryFlagged (uid, vs) then
      some (match steamidToAccountid uid with
        | some a => a
        | none => uid)
    else findFlagged rest

/-- Translation of most_recent_user_id: each element of the list is the
loginusers.vdf contents of one config dir, none standing for a missing or
unreadable file; the first file whose users object holds a flagged entry
wins. -/
def mostRecentUserId : List (Option String) → Option String
  | [] => none
  | f :: rest =>
    match f with
    | none => mostRecentUserId rest
    | some contents =>
      match parseVdf contents with
      | none => mostRecentUserId rest
      | some x =>
        match usersObjOf x with
        | none => mostRecentUserId rest
        | some users =>
          match findFlagged users with
          | some r => some r
          | none => mostRecentUserId rest

/-! The userdata world: config-dir login files, userdata dirs with their
subdirectory listings, and a file-system map for the per-user settings
files. -/

/-- Paths are segment lists. -/
abbrev FPath := List String

/-- One file on disk: read_to_string result (none when unreadable) and
modification time. -/
structure FileNode where
  read : Option String
  mtime : Nat

/-- One userdata directory: its location name and its read_dir listing of
per-user subdirectories. -/
structure UserdataDir where
  name : String
  entries : List String

/-- The world the user_config functions see: loginusers contents per config
dir, the userdata dirs, and the file system restricted to the settings
files. -/
structure SteamWorld where
  loginFiles : List (Option String)
  userdata : List UserdataDir
  files : FPath → Option FileNode

/-- The conventional per-user settings path below a userdata dir. -/
def localconfigPath (ud : String) (uid : String) : FPath := [ud, uid, "config", "localconfig.vdf"]

/-- Translation of find_localconfig_files: per userdata dir, prefer the
flagged user's settings file, fall back to enumerating all user dirs of that
userdata dir; with no flagged user, enumerate everywhere. -/
def findLocalconfigFiles (w : SteamWorld) : List FPath :=
  let recent := mostRecentUserId w.loginFiles
  (w.userdata.map (fun d =>
    match recent with
    | some uid =>
      let cfg := localconfigPath d.name uid
      if (w.files cfg).isSome then [cfg]
      else (d.entries.filter (fun e => (w.files (localconfigPath d.name e)).isSome)).map
        (localconfigPath d.name)
    | none =>
      (d.entries.filter (fun e => (w.files (localconfigPath d.name e)).isSome)).map
        (localconfigPath d.name))).flatten

/-- All existing per-user settings files across every userdata root, in scan
order. -/
def scanExisting (w : SteamWorld) : List FPath :=
  (w.userdata.map (fun d =>
    (d.entries.filter (fun e => (w.files (localconfigPath d.name e)).isSome)).map
      (localconfigPath d.name))).flatten

/-- Translation of default_localconfig_path: require a flagged user id, use
the first userdata dir holding that user's directory; otherwise fall back to
the unique existing settings file, refusing to guess between several. -/
def defaultLocalconfigPath (w : SteamWorld) : Option FPath :=
  match mostRecentUserId w.loginFiles with
  | none => none
  | some uid =>
    match w.userdata.find? (fun d => d.entries.contains uid) with
    | some d => some (localconfigPath d.name uid)
    | none =>
      match scanExisting w with
      | [p] => some p
      | _ => none

/-- Translation of expected_localconfig_path, a direct wrapper. -/
def expectedLocalconfigPath (w : SteamWorld) : Option FPath := defaultLocalconfigPath w

/-! The per-file, modification-time-gated cache, translated from
read_manifest_cached in src/src/utils/library.rs and its twin
read_localconfig_cached in src/src/utils/user_config.rs. -/

/-- One cache entry: file contents plus the modification time observed when
they were captured. -/
structure ConfigEntry where
  contents : String
  modified : Nat
deriving Repr

/-- The cache instance state: the map from paths to entries plus the
insertion-order queue used for bounded eviction. -/
structure CacheSt where
  cache : List (FPath × ConfigEntry)
  order : List FPath
deriving Repr

/-- The empty cache. -/
def emptyCache : CacheSt := ⟨[], []⟩

/-- First entry for a path (HashMap get). -/
def lookupC : List (FPath × ConfigEntry) → FPath → Option ConfigEntry
  | [], _ => none
  | (q, e) :: rest, p => if q = p then some e else lookupC rest p

/-- HashMap insert: replace in place or append. -/
def insertC : List (FPath × ConfigEntry) → FPath → ConfigEntry → List (FPath × ConfigEntry)
  | [], p, e => [(p, e)]
  | (q, e') :: rest, p, e => if q = p then (q, e) :: rest else (q, e') :: insertC rest p e

/-- HashMap remove. -/
def removeC (m : List (FPath × ConfigEntry)) (p : FPath) : List (FPath × ConfigEntry) :=
  m.filter (fun q => q.1 ≠ p)

/-- Shared insertion bookkeeping of both cached readers and both cache
updaters: insert the entry, move the path to the back of the order queue, and
evict the oldest entry once the queue exceeds the limit. -/
def cacheInsert (limit : Nat) (st : CacheSt) (p : FPath) (c : String) (mtime : Nat) : CacheSt :=
  let cache1 := insertC st.cache p ⟨c, mtime⟩
  let order1 := (st.order.filter (fun q => q ≠ p)) ++ [p]
  if order1.length > limit then
    match order1 with
    | [] => ⟨cache1, order1⟩
    | old :: rest => ⟨removeC cache1 old, rest⟩
  else ⟨cache1, order1⟩

/-- The cached read shared by read_manifest_cached (limit 20) and
read_localconfig_cached (limit 10): fetch the metadata, serve the cached
contents when the recorded modification time is no older than the current
one, otherwise re-read and re-cache.  The third component records whether the
file contents were actually read from disk. -/
def cachedRead (limit : Nat) (fs : FPath → Option FileNode) (st : CacheSt) (p : FPath) :
    Option String × CacheSt × Bool :=
  match fs p with
  | none => (none, st, false)
  | some node =>
    let hit := match lookupC st.cache p with
      | some e => if e.modified ≥ node.mtime then some e.contents else none
      | none => none
    match hit with
    | some c => (some c, st, false)
    | none =>
      match node.read with
      | none => (none, st, true)
      | some c => (some c, cacheInsert limit st p c node.mtime, true)

/-- Translation of read_manifest_cached from src/src/utils/library.rs. -/
def readManifestCached (fs : FPath → Option FileNode) (st : CacheSt) (p : FPath) :
    Option String × CacheSt × Bool :=
  cachedRead 20 fs st p

/-- Translation of read_localconfig_cached from src/src/utils/user_config.rs. -/
def readLocalconfigCached (fs : FPath → Option FileNode) (st : CacheSt) (p : FPath) :
    Option String × CacheSt × Bool :=
  cachedRead 10 fs st p

/-- Translation of update_localconfig_cache: re-fetch the metadata of the
just-written file and pre-populate its cache entry with the written
contents; a metadata failure leaves the cache untouched. -/
def updateLocalconfigCache (fs : FPath → Option FileNode) (st : CacheSt) (p : FPath)
    (contents : String) : CacheSt :=
  match fs p with
  | some node => cacheInsert 10 st p contents node.mtime
  | none => st

/-! The write-back paths, translated from set_launch_options and
set_compat_tool in src/src/utils/user_config.rs.  Writing to the file system
is modelled as always succeeding and stamping the written file with the given
modification time. -/

/-- Outcome of a write-back call; crashed models a Rust panic inside the
updater. -/
inductive SetResult where
  | ok
  | errOther
  | errNotFound
  | crashed
deriving Repr, DecidableEq

/-- Overwrite one file of the world. -/
def writeFile (w : SteamWorld) (p : FPath) (c : String) (wt : Nat) : SteamWorld :=
  { w with files := fun q => if q = p then some ⟨some c, wt⟩ else w.files q }

/-- Outcome of the discovery loop of a write-back call. -/
inductive LoopOutcome where
  | ok (w : SteamWorld) (cache : CacheSt) (written : FPath)
  | crashed
  | fellThrough (cache : CacheSt)

/-- The discovery loop: try each discovered settings file in order; the first
one whose cached read succeeds is updated and written, the cache entry being
pre-populated with the written contents. -/
def setLoop (upd : String → Option String) (wt : Nat) (w : SteamWorld) :
    CacheSt → List FPath → LoopOutcome
  | cache, [] => .fellThrough cache
  | cache, cfg :: rest =>
    match readLocalconfigCached w.files cache cfg with
    | (some contents, cache', _) =>
      match upd contents with
      | some updated =>
        let w' := writeFile w cfg updated wt
        .ok w' (updateLocalconfigCache w'.files cache' cfg updated) cfg
      | none => .crashed
    | (none, cache', _) => setLoop upd wt w cache' rest

/-- The shared shape of set_launch_options and set_compat_tool: run the
discovery loop, then fall back to creating the expected settings file from an
empty document; the error distinguishes whether any file was discovered at
all.  Returns the outcome, the final world, the final cache, and the list of
written paths. -/
def setVia (upd : String → Option String) (w : SteamWorld) (cache : CacheSt) (wt : Nat) :
    SetResult × SteamWorld × CacheSt × List FPath :=
  let cfgs := findLocalconfigFiles w
  match setLoop upd wt w cache cfgs with
  | .ok w' cache' p => (.ok, w', cache', [p])
  | .crashed => (.crashed, w, cache, [])
  | .fellThrough cache' =>
    match defaultLocalconfigPath w with
    | some cfg =>
      match upd "" with
      | some updated =>
        let w' := writeFile w cfg updated wt
        (.ok, w', updateLocalconfigCache w'.files cache' cfg updated, [cfg])
      | none => (.crashed, w, cache', [])
    | none => (if cfgs.isEmpty then .errNotFound else .errOther, w, cache', [])

/-- Translation of set_launch_options. -/
def setLaunchOptionsM (w : SteamWorld) (cache : CacheSt) (appId : Nat) (value : String)
    (wt : Nat) : SetResult × SteamWorld × CacheSt × List FPath :=
  setVia (fun c => updateLaunchOptions c appId value) w cache wt

/-- Translation of set_compat_tool (with a tool to set). -/
def setCompatToolM (w : SteamWorld) (cache : CacheSt) (appId : Nat) (value : String)
    (wt : Nat) : SetResult × SteamWorld × CacheSt × List FPath :=
  setVia (fun c => updateCompatTool c appId (some value)) w cache wt

/-! The whole-result time-to-live caches, translated from
src/src/core/steam.rs.  The file-system scans behind the recomputation are
abstracted as parameters; the cache gate itself is translated verbatim. -/

/-- A Steam library root, from src/src/core/models.rs. -/
structure SteamLibrary where
  path : FPath
deriving Repr, DecidableEq

/-- A discovered game, from src/src/core/models.rs. -/
structure GameInfo where
  appId : Nat
  name : String
  prefixPath : FPath
  hasManifest : Bool
  lastPlayed : Nat
deriving Repr, DecidableEq

/-- Errors of the library scan. -/
inductive SteamErr where
  | steamConfigNotFound
  | parseFailure
  | steamNotFound
deriving Repr, DecidableEq

/-- The fixed cache duration of five seconds. -/
def cacheDuration : Nat := 5

/-- Translation of get_steam_libraries: serve the cached list while the entry
is younger than the duration, otherwise run the scan (abstracted as fetch)
exactly once, caching its result only on success.  Returns the result, the
new cache state, and how many times the scan ran. -/
def getSteamLibrariesM (cache : Option (List SteamLibrary × Nat)) (now : Nat)
    (fetch : Except SteamErr (List SteamLibrary)) :
    Except SteamErr (List SteamLibrary) × Option (List SteamLibrary × Nat) × Nat :=
  match cache with
  | some (libs, ts) =>
    if now - ts < cacheDuration then (.ok libs, cache, 0)
    else
      match fetch with
      | .ok fresh => (.ok fresh, some (fresh, now), 1)
      | .error e => (.error e, cache, 1)
  | none =>
    match fetch with
    | .ok fresh => (.ok fresh, some (fresh, now), 1)
    | .error e => (.error e, cache, 1)

/-- The merge step of load_games_from_libraries: per-library results are
joined in order, a failed library being logged and skipped. -/
def combineGames (perLib : List (Except Unit (List GameInfo))) : List GameInfo :=
  (perLib.map (fun r => match r with
    | .ok gs => gs
    | .error _ => [])).flatten

/-- Translation of load_games_from_libraries: serve the cached list while the
entry is younger than the duration, otherwise merge the per-library scans
(abstracted as perLib) exactly once and cache the merged result. -/
def loadGamesFromLibrariesM (cache : Option (List GameInfo × Nat)) (now : Nat)
    (perLib : List (Except Unit (List GameInfo))) :
    Except SteamErr (List GameInfo) × Option (List GameInfo × Nat) × Nat :=
  match cache with
  | some (gs, ts) =>
    if now - ts < cacheDuration then (.ok gs, cache, 0)
    else (.ok (combineGames perLib), some (combineGames perLib, now), 1)
  | none => (.ok (combineGames perLib), some (combineGames perLib, now), 1)

/-! The runtime matcher, translated from find_proton_runtime in
src/src/utils/prefix_repair.rs.  Directory contents are supplied as listings:
name plus whether the entry is a directory; a missing listing models a failed
read_dir (an exists check against a missing listing is false). -/

/-- ASCII lower-casing, modelling Rust to_lowercase on the names involved. -/
def lowerStr (s : String) : String := String.mk (s.data.map Char.toLower)

/-- ASCII trim, modelling Rust str trim. -/
def trimStr (s : String) : String :=
  String.mk (((s.data.dropWhile (fun c => isWsChar c)).reverse.dropWhile
    (fun c => isWsChar c)).reverse)

/-- Rust trim_start_matches with the literal Proton, removing every repeated
occurrence of the prefix. -/
def stripProton : List Char → List Char
  | 'P' :: 'r' :: 'o' :: 't' :: 'o' :: 'n' :: rest => stripProton rest
  | cs => cs

/-- First segment of a split on dash or space, as split(..).next() yields. -/
def splitFirstSeg (cs : List Char) : List Char :=
  cs.takeWhile (fun c => !(c == '-' || c == ' '))

/-- List-level prefix test. -/
def isPrefixOfL : List Char → List Char → Bool
  | [], _ => true
  | _ :: _, [] => false
  | a :: as, b :: bs => a == b && isPrefixOfL as bs

/-- Substring test, modelling Rust str contains. -/
def isSubstring (n : List Char) : List Char → Bool
  | [] => n.isEmpty
  | c :: t => isPrefixOfL n (c :: t) || isSubstring n t

/-- Candidate directory names derived from the version label: the label
itself, plus a normalized Proton-prefixed short form. -/
def runtimeCandidates (version : String) : List String :=
  let normalized := trimStr version
  if isPrefixOfL "proton".data (lowerStr normalized).data then
    let rest := splitFirstSeg (trimStr (String.mk (stripProton normalized.data))).data
    if rest.isEmpty then [version] else [version, "Proton " ++ String.mk rest]
  else
    [version, "Proton " ++ String.mk (splitFirstSeg normalized.data)]

/-- The lower-cased short form used by the fuzzy stages. -/
def fuzzyBase (version : String) : String :=
  lowerStr (String.mk (splitFirstSeg (trimStr (String.mk (stripProton (trimStr version).data))).data))

/-- One library root as the matcher sees it: its path and the listing of its
steamapps/common subdirectory. -/
structure LibDir where
  path : FPath
  commonListing : Option (List (String × Bool))

/-- One configured compatibility-tools root and its listing. -/
structure ToolDir where
  path : FPath
  listing : Option (List (String × Bool))

/-- The environment of the matcher: the library list (none when
get_steam_libraries failed) and the compatibility-tools roots. -/
structure RtEnv where
  libs : Option (List LibDir)
  toolDirs : List ToolDir

/-- Existence check of a name below a directory. -/
def listingHas (l : Option (List (String × Bool))) (name : String) : Bool :=
  match l with
  | some es => es.any (fun e => e.1 == name)
  | none => false

/-- Whether a directory entry matches the fuzzy test: a directory whose
lower-cased name contains the lower-cased label or the short form. -/
def fuzzyHit (n1 n2 : String) (e : String × Bool) : Bool :=
  e.2 && (isSubstring n1.data (lowerStr e.1).data || isSubstring n2.data (lowerStr e.1).data)

/-- Exact stage over the libraries, candidate-major as the source loops. -/
def exactLibStage (libs : List LibDir) (cands : List String) : Option FPath :=
  cands.findSome? (fun c => libs.findSome? (fun l =>
    if listingHas l.commonListing c then some (l.path ++ ["steamapps", "common", c]) else none))

/-- Fuzzy stage over the libraries. -/
def fuzzyLibStage (libs : List LibDir) (n1 n2 : String) : Option FPath :=
  libs.findSome? (fun l =>
    match l.commonListing with
    | some es => es.findSome? (fun e =>
      if fuzzyHit n1 n2 e then some (l.path ++ ["steamapps", "common", e.1]) else none)
    | none => none)

/-- The per-tool-root phase: within each root, first the exact candidates,
then the fuzzy scan of that same root, before moving to the next root. -/
def toolStage (dirs : List ToolDir) (cands : List String) (n1 n2 : String) : Option FPath :=
  dirs.findSome? (fun d =>
    match cands.findSome? (fun c => if listingHas d.listing c then some (d.path ++ [c]) else none) with
    | some p => some p
    | none =>
      match d.listing with
      | some es => es.findSome? (fun e => if fuzzyHit n1 n2 e then some (d.path ++ [e.1]) else none)
      | none => none)

/-- Translation of find_proton_runtime: the library exact stage, then the
library fuzzy stage, then the per-tool-root phase. -/
def findProtonRuntime (env : RtEnv) (version : String) : Option FPath :=
  let cands := runtimeCandidates version
  let n1 := lowerStr (trimStr version)
  let n2 := fuzzyBase version
  let libPhase :=
    match env.libs with
    | some libs =>
      match exactLibStage libs cands with
      | some p => some p
      | none => fuzzyLibStage libs n1 n2
    | none => none
  match libPhase with
  | some p => some p
  | none => toolStage env.toolDirs cands n1 n2

/-- Exact stage over the tool roots alone, used to state the claimed search
order. -/
def exactToolStage (dirs : List ToolDir) (cands : List String) : Option FPath :=
  dirs.findSome? (fun d => cands.findSome? (fun c =>
    if listingHas d.listing c then some (d.path ++ [c]) else none))

/-- Fuzzy stage over the tool roots alone, used to state the claimed search
order. -/
def fuzzyToolStage (dirs : List ToolDir) (n1 n2 : String) : Option FPath :=
  dirs.findSome? (fun d =>
    match d.listing with
    | some es => es.findSome? (fun e => if fuzzyHit n1 n2 e then some (d.path ++ [e.1]) else none)
    | none => none)

/-- The search order the claim states: exact over libraries, then exact over
tool roots, then fuzzy over libraries, then fuzzy over tool roots. -/
def claimedOrderSearch (env : RtEnv) (version : String) : Option FPath :=
  let cands := runtimeCandidates version
  let n1 := lowerStr (trimStr version)
  let n2 := fuzzyBase version
  let stage1 := match env.libs with
    | some libs => exactLibStage libs cands
    | none => none
  let stage2 := exactToolStage env.toolDirs cands
  let stage3 := match env.libs with
    | some libs => fuzzyLibStage libs n1 n2
    | none => none
  let stage4 := fuzzyToolStage env.toolDirs n1 n2
  match stage1 with
  | some p => some p
  | none =>
    match stage2 with
    | some p => some p
    | none =>
      match stage3 with
      | some p => some p
      | none => stage4

/-! The repair state machine, translated from repair_prefix in
src/src/utils/prefix_repair.rs. -/

/-- Version detection from the contents of the version file of the target and
of its parent, translated from detect_proton_version. -/
def detectProtonVersion (vf pvf : Option String) : Option String :=
  let fromFile : Option String → Option String := fun o =>
    match o with
    | some contents =>
      let v := trimStr contents
      if v = "" then none else some v
    | none => none
  match fromFile vf with
  | some v => some v
  | none => fromFile pvf

/-- An invoked command: an executable inside a located runtime or one
resolved on the general search path, plus its arguments. -/
structure Cmd where
  exe : FPath ⊕ String
  args : List String
deriving Repr, DecidableEq

/-- The world the repair machine acts in: whether the pfx directory already
exists, the results of the three directory creations, the version-file
contents, the matcher environment, the executable existence predicate, and
the behaviour of process invocation (error means the process could not start,
otherwise its exit status). -/
structure RepairWorld where
  pfxExists : Bool
  mkPfx : Except String Unit
  mkDriveC : Except String Unit
  mkDos : Except String Unit
  versionFile : Option String
  parentVersionFile : Option String
  rtEnv : RtEnv
  exeExists : FPath → Bool
  run : Cmd → Except String Nat

/-- Translation of find_wineboot: the first existing of three conventional
locations inside the runtime. -/
def findWineboot (ex : FPath → Bool) (rt : FPath) : Option FPath :=
  [rt ++ ["dist", "bin", "wineboot"], rt ++ ["files", "bin", "wineboot"],
    rt ++ ["bin", "wineboot"]].find? ex

/-- Translation of find_wine: the first existing of six conventional
locations inside the runtime. -/
def findWine (ex : FPath → Bool) (rt : FPath) : Option FPath :=
  [rt ++ ["dist", "bin", "wine64"], rt ++ ["dist", "bin", "wine"],
    rt ++ ["files", "bin", "wine64"], rt ++ ["files", "bin", "wine"],
    rt ++ ["bin", "wine64"], rt ++ ["bin", "wine"]].find? ex

/-- Run one bootstrap command and interpret its status: a start failure or a
non-zero exit is an error, exit zero is success. -/
def runBootstrap (w : RepairWorld) (c : Cmd) : Except String Unit × List Cmd :=
  match w.run c with
  | .error e => (.error e, [c])
  | .ok 0 => (.ok (), [c])
  | .ok (_ + 1) => (.error "wineboot failed", [c])

/-- Translation of repair_prefix: idempotently ensure the pfx, drive_c and
dosdevices directories (an I/O failure there aborts), then locate a runtime
wineboot (or wine) via version detection and the matcher, falling back to the
system wineboot; the second component records the invoked processes. -/
def repairPrefix (w : RepairWorld) : Except String Unit × List Cmd :=
  let ensure : Except String Unit :=
    match (if w.pfxExists then Except.ok () else w.mkPfx) with
    | .error e => .error e
    | .ok _ =>
      match w.mkDriveC with
      | .error e => .error e
      | .ok _ => w.mkDos
  match ensure with
  | .error e => (.error e, [])
  | .ok _ =>
    let fallback := runBootstrap w ⟨.inr "wineboot", ["-u"]⟩
    match detectProtonVersion w.versionFile w.parentVersionFile with
    | some version =>
      match findProtonRuntime w.rtEnv version with
      | some rt =>
        match findWineboot w.exeExists rt with
        | some wb => runBootstrap w ⟨.inl wb, ["-u"]⟩
        | none =>
          match findWine w.exeExists rt with
          | some wine => runBootstrap w ⟨.inl wine, ["wineboot", "-u"]⟩
          | none => fallback
      | none => fallback
    | none => fallback

/-! Size measures for the nested document tree, used for strong induction. -/

mutual

def szV : VValue → Nat
  | .str _ => 1
  | .obj es => szE es + 1

def szE : Entries → Nat
  | [] => 0
  | (_, vs) :: rest => szVs vs + szE rest + 1

def szVs : List VValue → Nat
  | [] => 0
  | v :: vs => szV v + szVs vs + 1

end

/-! From here on: theorems.  First the lexer runs correctly over rendered
output. -/

theorem foldl_lexStep_append (a b : List Char) (st : LexMode × List Tok) :
    (a ++ b).foldl lexStep st = b.foldl lexStep (a.foldl lexStep st) := by
  rw [List.foldl_append]

theorem lexStep_escChar (c : Char) (acc : List Char) (ts : List Tok) :
    (escChar c).foldl lexStep (.instr acc, ts) = (.instr (acc ++ [c]), ts) := by
  by_cases h1 : c = '\n'
  · subst h1; rfl
  · by_cases h2 : c = '\t'
    · subst h2; rfl
    · by_cases h3 : c = '\\'
      · subst h3; rfl
      · by_cases h4 : c = '\"'
        · subst h4; rfl
        · simp [escChar, if_neg h1, if_neg h2, if_neg h3, if_neg h4, lexStep]

theorem lexStep_escList (cs : List Char) :
    ∀ acc ts, (cs.foldr (fun c r => escChar c ++ r) []).foldl lexStep (.instr acc, ts)
      = (.instr (acc ++ cs), ts) := by
  induction cs with
  | nil => intro acc ts; simp
  | cons c cs ih =>
    intro acc ts
    simp only [List.foldr_cons]
    rw [foldl_lexStep_append, lexStep_escChar, ih]
    simp

theorem stringEta (s : String) : String.mk s.data = s := by
  cases s; rfl

theorem lexStep_quoteTok (s : String) (ts : List Tok) :
    (quoteTok s).foldl lexStep (.normal, ts) = (.normal, ts ++ [.str s]) := by
  simp only [quoteTok, List.foldl_cons]
  have h0 : lexStep (.normal, ts) '\"' = (.instr [], ts) := rfl
  rw [h0, foldl_lexStep_append]
  rw [show escString s = s.data.foldr (fun c r => escChar c ++ r) [] from rfl]
  rw [lexStep_escList]
  simp [lexStep, stringEta]

theorem lexStep_tabs (n : Nat) (ts : List Tok) :
    (tabs n).foldl lexStep (.normal, ts) = (.normal, ts) := by
  induction n with
  | zero => rfl
  | succ n ih => simpa [tabs, lexStep, isWsChar] using ih

theorem lexStep_nl (ts : List Tok) : lexStep (.normal, ts) '\n' = (.normal, ts) := rfl

theorem lexStep_tab (ts : List Tok) : lexStep (.normal, ts) '\t' = (.normal, ts) := rfl

theorem lexStep_lb (ts : List Tok) : lexStep (.normal, ts) '\x7b' = (.normal, ts ++ [.lb]) := rfl

theorem lexStep_rb (ts : List Tok) : lexStep (.normal, ts) '\x7d' = (.normal, ts ++ [.rb]) := rfl

theorem szV_pos (v : VValue) : 1 ≤ szV v := by
  cases v <;> simp [szV]

theorem renderLexAux (n : Nat) :
    (∀ v, szV v ≤ n → ∀ ind k ts,
      (renderPair ind k v).foldl lexStep (.normal, ts) = (.normal, ts ++ .str k :: toksVal v)) ∧
    (∀ es, szE es ≤ n → ∀ ind ts,
      (renderEntries ind es).foldl lexStep (.normal, ts) = (.normal, ts ++ toksEntries es)) ∧
    (∀ k vs, szVs vs ≤ n → ∀ ind ts,
      (renderVals ind k vs).foldl lexStep (.normal, ts) = (.normal, ts ++ toksVals k vs)) := by
  induction n with
  | zero =>
    refine ⟨fun v hv => absurd (le_trans (szV_pos v) hv) (by omega), ?_, ?_⟩
    · intro es hes ind ts
      cases es with
      | nil => simp [renderEntries, toksEntries]
      | cons p rest => simp only [szE] at hes; omega
    · intro k vs hvs ind ts
      cases vs with
      | nil => simp [renderVals, toksVals]
      | cons v rest => simp only [szVs] at hvs; omega
  | succ n ih =>
    obtain ⟨ihV, ihE, ihVs⟩ := ih
    refine ⟨?_, ?_, ?_⟩
    · intro v hv ind k ts
      cases v with
      | str s =>
        simp only [renderPair, toksVal, List.append_assoc, foldl_lexStep_append,
          List.foldl_cons, List.foldl_nil, lexStep_tabs, lexStep_quoteTok, lexStep_nl,
          lexStep_tab]
        simp
      | obj es =>
        have hes : szE es ≤ n := by simp only [szV] at hv; omega
        simp only [renderPair, toksVal, List.append_assoc, foldl_lexStep_append,
          List.foldl_cons, List.foldl_nil, lexStep_tabs, lexStep_quoteTok, lexStep_nl,
          lexStep_tab, lexStep_lb, lexStep_rb, ihE es hes]
        simp
    · intro es hes ind ts
      cases es with
      | nil => simp [renderEntries, toksEntries]
      | cons p rest =>
        obtain ⟨k', vs⟩ := p
        have h1 : szVs vs ≤ n := by simp only [szE] at hes; omega
        have h2 : szE rest ≤ n := by simp only [szE] at hes; omega
        simp only [renderEntries, toksEntries, foldl_lexStep_append, ihVs k' vs h1, ihE rest h2]
        simp
    · intro k vs hvs ind ts
      cases vs with
      | nil => simp [renderVals, toksVals]
      | cons v rest =>
        have h1 : szV v ≤ n := by simp only [szVs] at hvs; omega
        have h2 : szVs rest ≤ n := by simp only [szVs] at hvs; omega
        simp only [renderVals, toksVals, List.append_assoc, foldl_lexStep_append,
          ihV v h1, ihVs k rest h2]

theorem lex_renderVdf (x : Vdf) :
    lex (renderVdf x) = some (.str x.key :: toksVal x.value) := by
  have h := (renderLexAux (szV x.value)).1 x.value (le_refl _) 0 x.key []
  unfold lex renderVdf
  rw [show (String.mk (renderPair 0 x.key x.value)).data = renderPair 0 x.key x.value from rfl, h]
  simp

/-! Grouping a flattened well-formed entry list reproduces it. -/

theorem addPair_not_mem (acc : Entries) (k : String) (v : VValue)
    (h : acc.any (fun p => p.1 == k) = false) : addPair acc k v = acc ++ [(k, [v])] := by
  induction acc with
  | nil => rfl
  | cons p rest ih =>
    obtain ⟨k', vs⟩ := p
    simp only [List.any_cons, Bool.or_eq_false_iff] at h
    have hk : k' ≠ k := by simpa using h.1
    simp [addPair, hk, ih h.2]

theorem addPair_end (pre : Entries) (k : String) (cur : List VValue) (v : VValue)
    (h : pre.any (fun p => p.1 == k) = false) :
    addPair (pre ++ [(k, cur)]) k v = pre ++ [(k, cur ++ [v])] := by
  induction pre with
  | nil => simp [addPair]
  | cons p rest ih =>
    obtain ⟨k', vs⟩ := p
    simp only [List.any_cons, Bool.or_eq_false_iff] at h
    have hk : k' ≠ k := by simpa using h.1
    simp [addPair, hk, ih h.2]

theorem foldAdd_block (vs : List VValue) :
    ∀ (pre : Entries) (k : String) (cur : List VValue),
      pre.any (fun p => p.1 == k) = false →
      (vs.map (fun v => (k, v))).foldl (fun acc p => addPair acc p.1 p.2) (pre ++ [(k, cur)])
        = pre ++ [(k, cur ++ vs)] := by
  induction vs with
  | nil => intro pre k cur _; simp
  | cons v vs ih =>
    intro pre k cur h
    simp only [List.map_cons, List.foldl_cons]
    rw [show addPair (pre ++ [(k, cur)]) (k, v).1 (k, v).2 = pre ++ [(k, cur ++ [v])] from
      addPair_end pre k cur v h]
    rw [ih pre k (cur ++ [v]) h]
    simp

theorem foldAdd_flat (es : Entries) :
    ∀ acc : Entries, wfE es = true → (∀ p ∈ es, acc.any (fun q => q.1 == p.1) = false) →
      (flatPairs es).foldl (fun acc p => addPair acc p.1 p.2) acc = acc ++ es := by
  induction es with
  | nil => intro acc _ _; simp [flatPairs]
  | cons p rest ih =>
    intro acc hwf hd
    obtain ⟨k, vs⟩ := p
    simp only [wfE, Bool.and_eq_true, Bool.not_eq_true'] at hwf
    obtain ⟨⟨⟨hne, _hvs⟩, hnotin⟩, hrest⟩ := hwf
    obtain ⟨v0, vs', rfl⟩ : ∃ v0 vs', vs = v0 :: vs' := by
      cases vs with
      | nil => simp at hne
      | cons a b => exact ⟨a, b, rfl⟩
    have hacc : acc.any (fun q => q.1 == k) = false := hd (k, v0 :: vs') (by simp)
    simp only [flatPairs, List.map_cons, List.flatten_cons, List.foldl_append]
    have hblock :
        List.foldl (fun acc p => addPair acc p.1 p.2) acc ((k, v0) :: List.map (fun v => (k, v)) vs')
          = acc ++ [(k, v0 :: vs')] := by
      simp only [List.foldl_cons]
      rw [show addPair acc (k, v0).1 (k, v0).2 = acc ++ [(k, [v0])] from addPair_not_mem acc k v0 hacc]
      rw [foldAdd_block vs' acc k [v0] hacc]
      simp
    rw [hblock]
    have hd' : ∀ q ∈ rest, (acc ++ [(k, v0 :: vs')]).any (fun r => r.1 == q.1) = false := by
      intro q hq
      simp only [List.any_append, Bool.or_eq_false_iff]
      refine ⟨hd q (by simp [hq]), ?_⟩
      have : q.1 ≠ k := by
        intro hqk
        have : rest.any (fun p => p.1 == k) = true := by
          refine List.any_eq_true.mpr ⟨q, hq, ?_⟩
          simp [hqk]
        simp [this] at hnotin
      simp [Ne.symm this]
    have := ih (acc ++ [(k, v0 :: vs')]) hrest hd'
    rw [show flatPairs rest = (rest.map (fun p => p.2.map (fun v => (p.1, v)))).flatten from rfl] at this
    rw [this]
    simp

theorem groupPairs_flat (es : Entries) (h : wfE es = true) : groupPairs (flatPairs es) = es := by
  have := foldAdd_flat es [] h (by intro p _; simp)
  simpa [groupPairs] using this

/-! The token parser consumes exactly the token stream of a well-formed
document and reproduces it. -/

theorem parseRoundAux (n : Nat) :
    (∀ v, szV v ≤ n → wfV v = true → ∀ f (rest : List Tok), (toksVal v).length ≤ f + 1 →
      parseValue f (toksVal v ++ rest) = some (v, rest)) ∧
    (∀ es, szE es ≤ n → wfE es = true → ∀ f (rest : List Tok), (toksEntries es).length ≤ f →
      parsePairs f (toksEntries es ++ .rb :: rest) = some (flatPairs es, rest)) ∧
    (∀ k vs, szVs vs ≤ n → wfVs vs = true → ∀ m (T : List Tok) ps' (rest : List Tok),
      (∀ g, m ≤ g → parsePairs g T = some (ps', rest)) →
      ∀ f, (toksVals k vs).length + m ≤ f →
      parsePairs f (toksVals k vs ++ T) = some ((vs.map (fun v => (k, v))) ++ ps', rest)) := by
  induction n with
  | zero =>
    refine ⟨fun v hv => absurd (le_trans (szV_pos v) hv) (by omega), ?_, ?_⟩
    · intro es hes hwf f rest hf
      cases es with
      | nil => simp [toksEntries, flatPairs, parsePairs]
      | cons p r => simp only [szE] at hes; omega
    · intro k vs hvs hwf m T ps' rest hT f hf
      cases vs with
      | nil =>
        simp only [toksVals, List.nil_append, List.map_nil, List.nil_append]
        exact hT f (by simpa [toksVals] using hf)
      | cons v r => simp only [szVs] at hvs; omega
  | succ n ih =>
    obtain ⟨ihV, ihE, ihVs⟩ := ih
    refine ⟨?_, ?_, ?_⟩
    · intro v hv hwf f rest hf
      cases v with
      | str s => simp [toksVal, parseValue]
      | obj es =>
        have hes : szE es ≤ n := by simp only [szV] at hv; omega
        have hlen : (toksVal (VValue.obj es)).length = (toksEntries es).length + 2 := by
          simp [toksVal]
        cases f with
        | zero => rw [hlen] at hf; omega
        | succ f' =>
          have hf' : (toksEntries es).length ≤ f' := by rw [hlen] at hf; omega
          have hwfe : wfE es = true := by simpa [wfV] using hwf
          simp only [toksVal, List.cons_append, List.append_assoc, List.cons_append,
            List.nil_append]
          simp only [parseValue]
          rw [ihE es hes hwfe f' rest hf']
          simp [groupPairs_flat es hwfe]
    · intro es hes hwf f rest hf
      cases es with
      | nil => simp [toksEntries, flatPairs, parsePairs]
      | cons p r =>
        obtain ⟨k, vs⟩ := p
        have h1 : szVs vs ≤ n := by simp only [szE] at hes; omega
        have h2 : szE r ≤ n := by simp only [szE] at hes; omega
        simp only [wfE, Bool.and_eq_true, Bool.not_eq_true'] at hwf
        obtain ⟨⟨⟨_hne, hvs⟩, _hnotin⟩, hr⟩ := hwf
        have hlen : (toksEntries ((k, vs) :: r)).length
            = (toksVals k vs).length + (toksEntries r).length := by
          simp [toksEntries]
        have hcont : ∀ g, (toksEntries r).length ≤ g →
            parsePairs g (toksEntries r ++ .rb :: rest) = some (flatPairs r, rest) :=
          fun g hg => ihE r h2 hr g rest hg
        have := ihVs k vs h1 hvs ((toksEntries r).length) (toksEntries r ++ .rb :: rest)
          (flatPairs r) rest hcont f (by omega)
        simp only [toksEntries, List.append_assoc]
        rw [this]
        simp [flatPairs]
    · intro k vs hvs hwf m T ps' rest hT f hf
      cases vs with
      | nil =>
        simp only [toksVals, List.nil_append, List.map_nil, List.nil_append]
        exact hT f (by simpa [toksVals] using hf)
      | cons v vs' =>
        have h1 : szV v ≤ n := by simp only [szVs] at hvs; omega
        have h2 : szVs vs' ≤ n := by simp only [szVs] at hvs; omega
        simp only [wfVs, Bool.and_eq_true] at hwf
        obtain ⟨hv, hvs'⟩ := hwf
        have hlen : (toksVals k (v :: vs')).length
            = 1 + (toksVal v).length + (toksVals k vs').length := by
          simp [toksVals]; omega
        cases f with
        | zero => omega
        | succ f' =>
          have hfv : (toksVal v).length ≤ f' + 1 := by omega
          have hfr : (toksVals k vs').length + m ≤ f' := by omega
          have e1 := ihV v h1 hv f' (toksVals k vs' ++ T) hfv
          have e2 := ihVs k vs' h2 hvs' m T ps' rest hT f' hfr
          simp only [toksVals, List.cons_append, List.append_assoc]
          simp [parsePairs, e1, e2]

theorem parseVdf_renderVdf (x : Vdf) (h : wfVdf x = true) : parseVdf (renderVdf x) = some x := by
  unfold parseVdf
  rw [lex_renderVdf]
  have h1 := (parseRoundAux (szV x.value)).1 x.value (le_refl _) h ((toksVal x.value).length) []
    (by omega)
  rw [List.append_nil] at h1
  simp [h1]

/-! Parsing only produces well-formed documents. -/

theorem wfVs_append (vs : List VValue) (v : VValue) (h1 : wfVs vs = true) (h2 : wfV v = true) :
    wfVs (vs ++ [v]) = true := by
  induction vs with
  | nil => simp [wfVs, h2]
  | cons a r ih =>
    simp only [wfVs, Bool.and_eq_true] at h1
    simp only [List.cons_append, wfVs, Bool.and_eq_true]
    exact ⟨h1.1, ih h1.2⟩

theorem addPair_any (acc : Entries) (k : String) (v : VValue) (j : String) :
    (addPair acc k v).any (fun p => p.1 == j) = true ↔
      (acc.any (fun p => p.1 == j) = true ∨ j = k) := by
  induction acc with
  | nil =>
    simp only [addPair, List.any_cons, List.any_nil, Bool.or_false, beq_iff_eq]
    constructor
    · intro h; exact Or.inr h.symm
    · intro h
      rcases h with h | h
      · simp at h
      · exact h.symm
  | cons p rest ih =>
    obtain ⟨k', vs⟩ := p
    by_cases hk : k' = k
    · subst hk
      simp only [addPair, if_pos rfl, List.any_cons]
      constructor
      · exact fun h => Or.inl h
      · intro h
        rcases h with h | h
        · exact h
        · subst h; simp
    · simp only [addPair, if_neg hk, List.any_cons, Bool.or_eq_true_iff, ih]
      tauto

theorem addPair_wf (acc : Entries) (k : String) (v : VValue)
    (hacc : wfE acc = true) (hv : wfV v = true) : wfE (addPair acc k v) = true := by
  induction acc with
  | nil => simp [addPair, wfE, wfVs, hv]
  | cons p rest ih =>
    obtain ⟨k', vs⟩ := p
    simp only [wfE, Bool.and_eq_true, Bool.not_eq_true'] at hacc
    obtain ⟨⟨⟨hne, hvs⟩, hnotin⟩, hrest⟩ := hacc
    by_cases hk : k' = k
    · subst hk
      simp only [addPair, if_pos rfl, wfE, Bool.and_eq_true, Bool.not_eq_true']
      refine ⟨⟨⟨by simp, wfVs_append vs v hvs hv⟩, hnotin⟩, hrest⟩
    · simp only [addPair, if_neg hk, wfE, Bool.and_eq_true, Bool.not_eq_true']
      refine ⟨⟨⟨hne, hvs⟩, ?_⟩, ih hrest⟩
      rw [Bool.eq_false_iff]
      intro habs
      rcases (addPair_any rest k v k').mp habs with h | h
      · simp [h] at hnotin
      · exact hk h

theorem groupPairs_wf (ps : List (String × VValue)) (h : ∀ p ∈ ps, wfV p.2 = true) :
    wfE (groupPairs ps) = true := by
  have gen : ∀ (l : List (String × VValue)) (acc : Entries), wfE acc = true →
      (∀ p ∈ l, wfV p.2 = true) →
      wfE (l.foldl (fun acc p => addPair acc p.1 p.2) acc) = true := by
    intro l
    induction l with
    | nil => intro acc ha _; simpa using ha
    | cons p rest ih =>
      intro acc ha hl
      simp only [List.foldl_cons]
      exact ih (addPair acc p.1 p.2) (addPair_wf acc p.1 p.2 ha (hl p (by simp)))
        (fun q hq => hl q (by simp [hq]))
  exact gen ps [] rfl h

theorem parseWfAux (f : Nat) :
    (∀ ts v r, parseValue f ts = some (v, r) → wfV v = true) ∧
    (∀ ts ps r, parsePairs f ts = some (ps, r) → ∀ p ∈ ps, wfV p.2 = true) := by
  induction f with
  | zero =>
    constructor
    · intro ts v r h
      match ts with
      | [] => simp [parseValue] at h
      | .str s :: ts' => simp [parseValue] at h; simp [← h.1, wfV]
      | .lb :: ts' => simp [parseValue] at h
      | .rb :: ts' => simp [parseValue] at h
    · intro ts ps r h
      match ts with
      | [] => simp [parsePairs] at h
      | .rb :: ts' =>
        simp [parsePairs] at h
        intro p hp; rw [h.1] at hp; simp at hp
      | .str s :: ts' => simp [parsePairs] at h
      | .lb :: ts' => simp [parsePairs] at h
  | succ f ih =>
    obtain ⟨ihV, ihP⟩ := ih
    constructor
    · intro ts v r h
      match ts with
      | [] => simp [parseValue] at h
      | .str s :: ts' => simp [parseValue] at h; simp [← h.1, wfV]
      | .rb :: ts' => simp [parseValue] at h
      | .lb :: ts' =>
        match hp : parsePairs f ts' with
        | none => simp [parseValue, hp] at h
        | some (ps, ts'') =>
          simp only [parseValue, hp, Option.some.injEq, Prod.mk.injEq] at h
          rw [← h.1]
          simpa [wfV] using groupPairs_wf ps (ihP ts' ps ts'' hp)
    · intro ts ps r h
      match ts with
      | [] => simp [parsePairs] at h
      | .rb :: ts' =>
        simp [parsePairs] at h
        intro p hp; rw [h.1] at hp; simp at hp
      | .lb :: ts' => simp [parsePairs] at h
      | .str k :: ts' =>
        match hv : parseValue f ts' with
        | none => simp [parsePairs, hv] at h
        | some (v, ts'') =>
          match hp : parsePairs f ts'' with
          | none => simp [parsePairs, hv, hp] at h
          | some (ps', ts''') =>
            simp only [parsePairs, hv, hp, Option.some.injEq, Prod.mk.injEq] at h
            rw [← h.1]
            intro p hp'
            rcases List.mem_cons.mp hp' with rfl | hmem
            · exact ihV ts' v ts'' hv
            · exact ihP ts'' ps' ts''' hp p hmem

theorem parseVdf_wf (s : String) (x : Vdf) (h : parseVdf s = some x) : wfVdf x = true := by
  unfold parseVdf at h
  match hl : lex s with
  | none => rw [hl] at h; simp at h
  | some ts =>
    rw [hl] at h
    match ts with
    | [] => simp at h
    | .lb :: _ => simp at h
    | .rb :: _ => simp at h
    | .str k :: rest =>
      simp only at h
      match hv : parseValue rest.length rest with
      | none => rw [hv] at h; simp at h
      | some (v, r) =>
        rw [hv] at h
        match r with
        | _ :: _ => simp at h
        | [] =>
          simp only [Option.some.injEq] at h
          rw [← h]
          exact (parseWfAux rest.length).1 rest v [] hv

theorem parseOrDefault_wf (c : String) : wfVdf (parseOrDefault c) = true := by
  unfold parseOrDefault
  match hp : parseVdf c with
  | none => simp [fallbackVdf, wfVdf, wfV, wfE]
  | some x =>
    have hx := parseVdf_wf c x hp
    simp only
    match x, hx with
    | ⟨k, .obj es⟩, hx => simpa [wfVdf] using hx
    | ⟨k, .str s⟩, hx => simp [wfVdf, wfV, wfE]

/-! Facts about the ordered-multimap operations. -/

theorem getEntry_setFirstVal_self (o : Entries) (k : String) (w : VValue) :
    getEntry (setFirstVal o k w) k = (getEntry o k).map (fun vs => setHead vs w) := by
  induction o with
  | nil => rfl
  | cons p rest ih =>
    obtain ⟨k', vs⟩ := p
    by_cases hk : k' = k
    · simp [setFirstVal, getEntry, hk]
    · simp [setFirstVal, getEntry, hk, ih]

theorem getEntry_setFirstVal_ne (o : Entries) (k j : String) (w : VValue) (h : j ≠ k) :
    getEntry (setFirstVal o k w) j = getEntry o j := by
  induction o with
  | nil => rfl
  | cons p rest ih =>
    obtain ⟨k', vs⟩ := p
    by_cases hk : k' = k
    · subst hk
      simp [setFirstVal, getEntry, Ne.symm h]
    · by_cases hj : k' = j
      · subst hj
        simp [setFirstVal, getEntry, hk, h]
      · simp [setFirstVal, getEntry, hk, hj, ih]

theorem getEntry_append (a b : Entries) (j : String) :
    getEntry (a ++ b) j = (match getEntry a j with
      | some vs => some vs
      | none => getEntry b j) := by
  induction a with
  | nil => simp [getEntry]
  | cons p rest ih =>
    obtain ⟨k', vs⟩ := p
    by_cases hj : k' = j
    · simp [getEntry, hj]
    · simp [getEntry, hj, ih]

theorem setFirstVal_append_none (o : Entries) (k : String) (vs : List VValue) (w : VValue)
    (h : getEntry o k = none) :
    setFirstVal (o ++ [(k, vs)]) k w = o ++ [(k, setHead vs w)] := by
  induction o with
  | nil => simp [setFirstVal]
  | cons p rest ih =>
    obtain ⟨k', vs'⟩ := p
    by_cases hk : k' = k
    · simp [getEntry, hk] at h
    · simp only [getEntry, if_neg hk] at h
      simp [setFirstVal, hk, ih h]

theorem setFirstVal_same (o : Entries) (k : String) (w : VValue) (t : List VValue)
    (h : getEntry o k = some (w :: t)) : setFirstVal o k w = o := by
  induction o with
  | nil => simp [getEntry] at h
  | cons p rest ih =>
    obtain ⟨k', vs'⟩ := p
    by_cases hk : k' = k
    · subst hk
      simp only [getEntry, if_true, eq_self_iff_true, Option.some.injEq] at h
      subst h
      simp [setFirstVal, setHead]
    · simp only [getEntry, if_neg hk] at h
      simp [setFirstVal, hk, ih h]

theorem getEntry_insertEntry_self (o : Entries) (k : String) (vs : List VValue) :
    getEntry (insertEntry o k vs) k = some vs := by
  induction o with
  | nil => simp [insertEntry, getEntry]
  | cons p rest ih =>
    obtain ⟨k', vs'⟩ := p
    by_cases hk : k' = k
    · simp [insertEntry, getEntry, hk]
    · simp [insertEntry, getEntry, hk, ih]

theorem getEntry_none_iff (o : Entries) (k : String) :
    getEntry o k = none ↔ (o.any (fun p => p.1 == k)) = false := by
  induction o with
  | nil => simp [getEntry]
  | cons p rest ih =>
    obtain ⟨k', vs⟩ := p
    by_cases hk : k' = k
    · simp [getEntry, hk]
    · simp [getEntry, hk, ih]

theorem setFirstVal_any (o : Entries) (k : String) (w : VValue) (j : String) :
    (setFirstVal o k w).any (fun p => p.1 == j) = o.any (fun p => p.1 == j) := by
  induction o with
  | nil => rfl
  | cons p rest ih =>
    obtain ⟨k', vs⟩ := p
    by_cases hk : k' = k
    · simp [setFirstVal, hk]
    · simp [setFirstVal, hk, ih]

theorem getEntry_wf (o : Entries) (k : String) (vs : List VValue)
    (hwf : wfE o = true) (h : getEntry o k = some vs) :
    vs.isEmpty = false ∧ wfVs vs = true := by
  induction o with
  | nil => simp [getEntry] at h
  | cons p rest ih =>
    obtain ⟨k', vs'⟩ := p
    simp only [wfE, Bool.and_eq_true, Bool.not_eq_true'] at hwf
    obtain ⟨⟨⟨hne, hvs⟩, _⟩, hrest⟩ := hwf
    by_cases hk : k' = k
    · simp only [getEntry, if_pos hk, Option.some.injEq] at h
      subst h
      exact ⟨hne, hvs⟩
    · simp only [getEntry, if_neg hk] at h
      exact ih hrest h

theorem wfVs_head (v : VValue) (t : List VValue) (h : wfVs (v :: t) = true) :
    wfV v = true ∧ wfVs t = true := by
  simpa [wfVs, Bool.and_eq_true] using h

theorem wfE_setFirstVal (o : Entries) (k : String) (w : VValue)
    (hwf : wfE o = true) (hw : wfV w = true) : wfE (setFirstVal o k w) = true := by
  induction o with
  | nil => simpa [setFirstVal] using hwf
  | cons p rest ih =>
    obtain ⟨k', vs⟩ := p
    simp only [wfE, Bool.and_eq_true, Bool.not_eq_true'] at hwf
    obtain ⟨⟨⟨hne, hvs⟩, hnotin⟩, hrest⟩ := hwf
    by_cases hk : k' = k
    · cases vs with
      | nil => simp at hne
      | cons v0 t =>
        simp only [setFirstVal, if_pos hk, setHead, wfE, Bool.and_eq_true, Bool.not_eq_true']
        refine ⟨⟨⟨by simp, ?_⟩, hnotin⟩, hrest⟩
        simp only [wfVs, Bool.and_eq_true]
        exact ⟨hw, (wfVs_head v0 t hvs).2⟩
    · simp only [setFirstVal, if_neg hk, wfE, Bool.and_eq_true, Bool.not_eq_true']
      refine ⟨⟨⟨hne, hvs⟩, ?_⟩, ih hrest⟩
      rw [setFirstVal_any]
      exact hnotin

theorem wfE_append_new (o : Entries) (k : String) (vs : List VValue)
    (hwf : wfE o = true) (habs : getEntry o k = none)
    (hne : vs.isEmpty = false) (hvs : wfVs vs = true) : wfE (o ++ [(k, vs)]) = true := by
  induction o with
  | nil => simp [wfE, hne, hvs]
  | cons p rest ih =>
    obtain ⟨k', vs'⟩ := p
    simp only [wfE, Bool.and_eq_true, Bool.not_eq_true'] at hwf
    obtain ⟨⟨⟨hne', hvs'⟩, hnotin⟩, hrest⟩ := hwf
    by_cases hk : k' = k
    · simp [getEntry, hk] at habs
    · simp only [getEntry, if_neg hk] at habs
      simp only [List.cons_append, wfE, Bool.and_eq_true, Bool.not_eq_true']
      refine ⟨⟨⟨hne', hvs'⟩, ?_⟩, ih hrest habs⟩
      have hk' : ¬(k = k') := fun h => hk h.symm
      simp [List.any_append, hnotin, hk']

/-! Well-formedness characterized through membership, and preservation under
swap removal. -/

theorem wfE_iff (es : Entries) : wfE es = true ↔
    ((∀ p ∈ es, p.2.isEmpty = false ∧ wfVs p.2 = true) ∧ (es.map Prod.fst).Nodup) := by
  induction es with
  | nil => simp [wfE]
  | cons p rest ih =>
    obtain ⟨k, vs⟩ := p
    simp only [wfE, Bool.and_eq_true, Bool.not_eq_true', ih, List.map_cons, List.nodup_cons]
    constructor
    · rintro ⟨⟨⟨hne, hvs⟩, hnotin⟩, hall, hnd⟩
      refine ⟨?_, ?_, hnd⟩
      · intro q hq
        rcases List.mem_cons.mp hq with rfl | hq'
        · exact ⟨hne, hvs⟩
        · exact hall q hq'
      · intro hmem
        rcases List.mem_map.mp hmem with ⟨q, hq, hq1⟩
        have : rest.any (fun p => p.1 == k) = true :=
          List.any_eq_true.mpr ⟨q, hq, by simp [hq1]⟩
        rw [this] at hnotin
        cases hnotin
    · rintro ⟨hall, hkn, hnd⟩
      obtain ⟨hne, hvs⟩ := hall (k, vs) (by simp)
      refine ⟨⟨⟨hne, hvs⟩, ?_⟩, fun q hq => hall q (by simp [hq]), hnd⟩
      rw [Bool.eq_false_iff]
      intro habs
      rcases List.any_eq_true.mp habs with ⟨q, hq, hq1⟩
      exact hkn (List.mem_map.mpr ⟨q, hq, by simpa using hq1⟩)

theorem wfE_of_perm (l1 l2 : Entries) (hp : l1.Perm l2) (h : wfE l1 = true) : wfE l2 = true := by
  rw [wfE_iff] at h ⊢
  exact ⟨fun p hp' => h.1 p ((hp.mem_iff).mpr hp'), ((hp.map Prod.fst).nodup_iff).mp h.2⟩

theorem mem_of_getLastOpt (l : Entries) (e : String × List VValue)
    (h : l.getLast? = some e) : e ∈ l := by
  have := List.mem_getLast?_eq_getLast (l := l) (x := e) (by rw [h]; rfl)
  rcases this with ⟨hne, rfl⟩
  exact List.getLast_mem hne

theorem mem_swapRemove (l : Entries) (k : String) (p : String × List VValue)
    (h : p ∈ swapRemove l k) : p ∈ l := by
  induction l with
  | nil => simp [swapRemove] at h
  | cons q rest ih =>
    obtain ⟨k', vs⟩ := q
    by_cases hk : k' = k
    · simp only [swapRemove, if_pos hk] at h
      match hlast : rest.getLast? with
      | none => rw [hlast] at h; simp at h
      | some e =>
        rw [hlast] at h
        rcases List.mem_cons.mp h with rfl | h'
        · exact List.mem_cons_of_mem _ (mem_of_getLastOpt rest _ hlast)
        · exact List.mem_cons_of_mem _ (List.dropLast_subset rest h')
    · simp only [swapRemove, if_neg hk] at h
      rcases List.mem_cons.mp h with rfl | h'
      · simp
      · exact List.mem_cons_of_mem _ (ih h')

theorem swapRemove_any_sub (l : Entries) (k j : String)
    (h : (swapRemove l k).any (fun p => p.1 == j) = true) :
    l.any (fun p => p.1 == j) = true := by
  rcases List.any_eq_true.mp h with ⟨p, hp, hp1⟩
  exact List.any_eq_true.mpr ⟨p, mem_swapRemove l k p hp, hp1⟩

theorem getEntry_swapRemove_self (l : Entries) (k : String) (h : wfE l = true) :
    getEntry (swapRemove l k) k = none := by
  induction l with
  | nil => simp [swapRemove, getEntry]
  | cons q rest ih =>
    obtain ⟨k', vs⟩ := q
    simp only [wfE, Bool.and_eq_true, Bool.not_eq_true'] at h
    obtain ⟨⟨⟨_, _⟩, hnotin⟩, hrest⟩ := h
    by_cases hk : k' = k
    · subst hk
      simp only [swapRemove, if_pos rfl]
      match hlast : rest.getLast? with
      | none => simp [getEntry]
      | some e =>
        rw [getEntry_none_iff]
        rw [Bool.eq_false_iff]
        intro habs
        rcases List.any_eq_true.mp habs with ⟨p, hp, hp1⟩
        have hpr : p ∈ rest := by
          rcases List.mem_cons.mp hp with rfl | h'
          · exact mem_of_getLastOpt rest _ hlast
          · exact List.dropLast_subset rest h'
        have : rest.any (fun p => p.1 == k') = true := List.any_eq_true.mpr ⟨p, hpr, hp1⟩
        rw [this] at hnotin
        cases hnotin
    · simp only [swapRemove, if_neg hk, getEntry, if_neg hk]
      exact ih hrest

theorem wfE_swapRemove (l : Entries) (k : String) (h : wfE l = true) :
    wfE (swapRemove l k) = true := by
  induction l with
  | nil => simpa [swapRemove] using h
  | cons q rest ih =>
    obtain ⟨k', vs⟩ := q
    simp only [wfE, Bool.and_eq_true, Bool.not_eq_true'] at h
    obtain ⟨⟨⟨hne, hvs⟩, hnotin⟩, hrest⟩ := h
    by_cases hk : k' = k
    · simp only [swapRemove, if_pos hk]
      match hlast : rest.getLast? with
      | none => simp [wfE]
      | some e =>
        have hsplit : rest.dropLast ++ [e] = rest :=
          List.dropLast_append_getLast? e (by rw [hlast]; rfl)
        have hperm : rest.Perm (e :: rest.dropLast) := by
          conv_lhs => rw [← hsplit]
          exact List.perm_append_singleton e rest.dropLast
        exact wfE_of_perm rest (e :: rest.dropLast) hperm hrest
    · simp only [swapRemove, if_neg hk, wfE, Bool.and_eq_true, Bool.not_eq_true']
      refine ⟨⟨⟨hne, hvs⟩, ?_⟩, ih hrest⟩
      rw [Bool.eq_false_iff]
      intro habs
      have := swapRemove_any_sub rest k k' habs
      rw [this] at hnotin
      cases hnotin

theorem swapRemove_absent (l : Entries) (k : String) (h : getEntry l k = none) :
    swapRemove l k = l := by
  induction l with
  | nil => rfl
  | cons q rest ih =>
    obtain ⟨k', vs⟩ := q
    by_cases hk : k' = k
    · simp [getEntry, hk] at h
    · simp only [getEntry, if_neg hk] at h
      simp [swapRemove, hk, ih h]

/-! The walk-and-update helper preserves well-formedness and is idempotent
whenever its final operation is. -/

theorem wfE_of_getEntry_obj (o : Entries) (k : String) (inner : Entries) (t : List VValue)
    (hwf : wfE o = true) (hg : getEntry o k = some (.obj inner :: t)) : wfE inner = true := by
  have := (getEntry_wf o k _ hwf hg).2
  have := (wfVs_head _ _ this).1
  simpa [wfV] using this

theorem descend_wf_idem (f : Entries → Option Entries)
    (hf : ∀ a b, wfE a = true → f a = some b → wfE b = true ∧ f b = some b) :
    ∀ (ks : List String) (o o' : Entries), wfE o = true → descend o ks f = some o' →
      wfE o' = true ∧ descend o' ks f = some o' := by
  intro ks
  induction ks with
  | nil =>
    intro o o' hwf hd
    simp only [descend] at hd ⊢
    obtain ⟨h1, h2⟩ := hf o o' hwf hd
    exact ⟨h1, h2⟩
  | cons k ks' ih =>
    intro o o' hwf hd
    match hg : getEntry o k with
    | some [] => simp [descend, hg] at hd
    | some (.str s :: t) => simp [descend, hg] at hd
    | some (.obj inner :: t) =>
      simp only [descend, hg] at hd
      match hdi : descend inner ks' f with
      | none => rw [hdi] at hd; simp at hd
      | some inner' =>
        rw [hdi] at hd
        simp only [Option.map_some', Option.some.injEq] at hd
        have hwfi : wfE inner = true := wfE_of_getEntry_obj o k inner t hwf hg
        obtain ⟨hwfi', hidem⟩ := ih inner inner' hwfi hdi
        subst hd
        have hg' : getEntry (setFirstVal o k (.obj inner')) k = some (.obj inner' :: t) := by
          rw [getEntry_setFirstVal_self, hg]
          simp [setHead]
        refine ⟨wfE_setFirstVal o k _ hwf (by simpa [wfV] using hwfi'), ?_⟩
        simp only [descend, hg', hidem, Option.map_some', Option.some.injEq]
        exact setFirstVal_same _ k (.obj inner') t hg'
    | none =>
      simp only [descend, hg] at hd
      match hdi : descend [] ks' f with
      | none => rw [hdi] at hd; simp at hd
      | some inner' =>
        rw [hdi] at hd
        simp only [Option.map_some', Option.some.injEq] at hd
        obtain ⟨hwfi', hidem⟩ := ih [] inner' rfl hdi
        subst hd
        have hg' : getEntry (o ++ [(k, [.obj inner'])]) k = some (.obj inner' :: []) := by
          rw [getEntry_append, hg]
          simp [getEntry]
        refine ⟨wfE_append_new o k [.obj inner'] hwf hg (by simp)
          (by simpa [wfVs, wfV] using hwfi'), ?_⟩
        simp only [descend, hg', hidem, Option.map_some', Option.some.injEq]
        exact setFirstVal_same _ k (.obj inner') [] hg'

theorem descend_frame (f : Entries → Option Entries) (k : String) (ks : List String)
    (o o' : Entries) (j : String) (hj : j ≠ k)
    (hd : descend o (k :: ks) f = some o') : getEntry o' j = getEntry o j := by
  match hg : getEntry o k with
  | some [] => simp [descend, hg] at hd
  | some (.str s :: t) => simp [descend, hg] at hd
  | some (.obj inner :: t) =>
    simp only [descend, hg] at hd
    match hdi : descend inner ks f with
    | none => rw [hdi] at hd; simp at hd
    | some inner' =>
      rw [hdi] at hd
      simp only [Option.map_some', Option.some.injEq] at hd
      subst hd
      exact getEntry_setFirstVal_ne o k j _ hj
  | none =>
    simp only [descend, hg] at hd
    match hdi : descend [] ks f with
    | none => rw [hdi] at hd; simp at hd
    | some inner' =>
      rw [hdi] at hd
      simp only [Option.map_some', Option.some.injEq] at hd
      subst hd
      rw [getEntry_append]
      match hoj : getEntry o j with
      | some vs => simp
      | none => simp [getEntry, Ne.symm hj]

theorem blockedAt_nil (ks : List String) : blockedAt [] ks = false := by
  cases ks with
  | nil => simp [blockedAt, getObjAt, getEntry]
  | cons k ks' => simp [blockedAt, getObjAt, getEntry]

theorem descend_setLaunch (value : String) :
    ∀ (ks : List String) (o o' : Entries),
      descend o ks (setLaunchAt value) = some o' → blockedAt o ks = false →
      ∃ app' t, getObjAt o' ks = some app' ∧
        getEntry app' "LaunchOptions" = some (.str value :: t) := by
  intro ks
  induction ks with
  | nil =>
    intro o o' hd hb
    simp only [descend, setLaunchAt] at hd
    simp only [blockedAt, getObjAt] at hb
    match hg : getEntry o "LaunchOptions" with
    | some (.str s :: t) =>
      rw [hg] at hd
      simp only [Option.some.injEq] at hd
      subst hd
      refine ⟨setFirstVal o "LaunchOptions" (.str value), t, by simp [getObjAt], ?_⟩
      rw [getEntry_setFirstVal_self, hg]
      simp [setHead]
    | some (.obj es :: t) =>
      rw [hg] at hb
      simp at hb
    | some [] =>
      rw [hg] at hd
      simp only [Option.some.injEq] at hd
      subst hd
      exact ⟨insertEntry o "LaunchOptions" [.str value], [], by simp [getObjAt],
        getEntry_insertEntry_self o _ _⟩
    | none =>
      rw [hg] at hd
      simp only [Option.some.injEq] at hd
      subst hd
      refine ⟨o ++ [("LaunchOptions", [.str value])], [], by simp [getObjAt], ?_⟩
      rw [getEntry_append, hg]
      simp [getEntry]
  | cons k ks' ih =>
    intro o o' hd hb
    match hg : getEntry o k with
    | some [] => simp [descend, hg] at hd
    | some (.str s :: t) => simp [descend, hg] at hd
    | some (.obj inner :: t) =>
      simp only [descend, hg] at hd
      match hdi : descend inner ks' (setLaunchAt value) with
      | none => rw [hdi] at hd; simp at hd
      | some inner' =>
        rw [hdi] at hd
        simp only [Option.map_some', Option.some.injEq] at hd
        subst hd
        have hb' : blockedAt inner ks' = false := by
          simpa [blockedAt, getObjAt, hg] using hb
        obtain ⟨app', t', h1, h2⟩ := ih inner inner' hdi hb'
        have hg' : getEntry (setFirstVal o k (.obj inner')) k = some (.obj inner' :: t) := by
          rw [getEntry_setFirstVal_self, hg]
          simp [setHead]
        exact ⟨app', t', by simp [getObjAt, hg', h1], h2⟩
    | none =>
      simp only [descend, hg] at hd
      match hdi : descend [] ks' (setLaunchAt value) with
      | none => rw [hdi] at hd; simp at hd
      | some inner' =>
        rw [hdi] at hd
        simp only [Option.map_some', Option.some.injEq] at hd
        subst hd
        obtain ⟨app', t', h1, h2⟩ := ih [] inner' hdi (blockedAt_nil ks')
        have hg' : getEntry (o ++ [(k, [.obj inner'])]) k = some (.obj inner' :: []) := by
          rw [getEntry_append, hg]
          simp [getEntry]
        exact ⟨app', t', by simp [getObjAt, hg', h1], h2⟩

/-! The three final operations passed to the walk satisfy the idempotence
hypothesis. -/

theorem getEntry_some_append (o z : Entries) (j : String) (vs : List VValue)
    (h : getEntry o j = some vs) : getEntry (o ++ z) j = some vs := by
  rw [getEntry_append, h]

theorem setLaunchAt_hyp (value : String) (a b : Entries) (hwf : wfE a = true)
    (h : setLaunchAt value a = some b) : wfE b = true ∧ setLaunchAt value b = some b := by
  unfold setLaunchAt at h
  match hg : getEntry a "LaunchOptions" with
  | some (.str s :: t) =>
    rw [hg] at h
    simp only [Option.some.injEq] at h
    subst h
    have hg' : getEntry (setFirstVal a "LaunchOptions" (.str value)) "LaunchOptions"
        = some (.str value :: t) := by
      rw [getEntry_setFirstVal_self, hg]
      simp [setHead]
    refine ⟨wfE_setFirstVal a _ _ hwf (by simp [wfV]), ?_⟩
    unfold setLaunchAt
    rw [hg']
    simp only [Option.some.injEq]
    exact setFirstVal_same _ _ _ t hg'
  | some (.obj es :: t) =>
    rw [hg] at h
    simp only [Option.some.injEq] at h
    subst h
    refine ⟨hwf, ?_⟩
    unfold setLaunchAt
    rw [hg]
  | some [] =>
    have := (getEntry_wf a _ _ hwf hg).1
    simp at this
  | none =>
    rw [hg] at h
    simp only [Option.some.injEq] at h
    subst h
    have hg' : getEntry (a ++ [("LaunchOptions", [.str value])]) "LaunchOptions"
        = some (.str value :: []) := by
      rw [getEntry_append, hg]
      simp [getEntry]
    refine ⟨wfE_append_new a _ _ hwf hg (by simp) (by simp [wfVs, wfV]), ?_⟩
    unfold setLaunchAt
    rw [hg']
    simp only [Option.some.injEq]
    exact setFirstVal_same _ _ _ [] hg'

theorem removeAt_hyp (appKey : String) (a b : Entries) (hwf : wfE a = true)
    (h : (some (swapRemove a appKey) : Option Entries) = some b) :
    wfE b = true ∧ (some (swapRemove b appKey) : Option Entries) = some b := by
  simp only [Option.some.injEq] at h
  subst h
  refine ⟨wfE_swapRemove a appKey hwf, ?_⟩
  rw [swapRemove_absent _ _ (getEntry_swapRemove_self a appKey hwf)]

theorem setCompatAt_hyp (tool : String) (a b : Entries) (hwf : wfE a = true)
    (h : setCompatAt tool a = some b) : wfE b = true ∧ setCompatAt tool b = some b := by
  have post : ∀ o1 : Entries, wfE o1 = true →
      ((∃ t, getEntry o1 "name" = some (VValue.str tool :: t)) ∨
        (∃ es t, getEntry o1 "name" = some (VValue.obj es :: t))) →
      wfE (if (getEntry (if (getEntry o1 "config").isNone then o1 ++ [("config", [.str ""])]
            else o1) "priority").isNone
          then (if (getEntry o1 "config").isNone then o1 ++ [("config", [.str ""])] else o1)
            ++ [("priority", [.str "0"])]
          else (if (getEntry o1 "config").isNone then o1 ++ [("config", [.str ""])] else o1))
          = true ∧
      ((∃ t, getEntry (if (getEntry (if (getEntry o1 "config").isNone
            then o1 ++ [("config", [.str ""])] else o1) "priority").isNone
          then (if (getEntry o1 "config").isNone then o1 ++ [("config", [.str ""])] else o1)
            ++ [("priority", [.str "0"])]
          else (if (getEntry o1 "config").isNone then o1 ++ [("config", [.str ""])] else o1))
          "name" = some (VValue.str tool :: t)) ∨
        (∃ es t, getEntry (if (getEntry (if (getEntry o1 "config").isNone
            then o1 ++ [("config", [.str ""])] else o1) "priority").isNone
          then (if (getEntry o1 "config").isNone then o1 ++ [("config", [.str ""])] else o1)
            ++ [("priority", [.str "0"])]
          else (if (getEntry o1 "config").isNone then o1 ++ [("config", [.str ""])] else o1))
          "name" = some (VValue.obj es :: t))) ∧
      (getEntry (if (getEntry (if (getEntry o1 "config").isNone
            then o1 ++ [("config", [.str ""])] else o1) "priority").isNone
          then (if (getEntry o1 "config").isNone then o1 ++ [("config", [.str ""])] else o1)
            ++ [("priority", [.str "0"])]
          else (if (getEntry o1 "config").isNone then o1 ++ [("config", [.str ""])] else o1))
          "config").isNone = false ∧
      (getEntry (if (getEntry (if (getEntry o1 "config").isNone
            then o1 ++ [("config", [.str ""])] else o1) "priority").isNone
          then (if (getEntry o1 "config").isNone then o1 ++ [("config", [.str ""])] else o1)
            ++ [("priority", [.str "0"])]
          else (if (getEntry o1 "config").isNone then o1 ++ [("config", [.str ""])] else o1))
          "priority").isNone = false := by
    intro o1 hwf1 hng
    have step : ∀ (o : Entries) (key dflt : String), wfE o = true →
        ((∃ t, getEntry o "name" = some (VValue.str tool :: t)) ∨
          (∃ es t, getEntry o "name" = some (VValue.obj es :: t))) →
        wfE (if (getEntry o key).isNone then o ++ [(key, [.str dflt])] else o) = true ∧
        ((∃ t, getEntry (if (getEntry o key).isNone then o ++ [(key, [.str dflt])] else o)
            "name" = some (VValue.str tool :: t)) ∨
          (∃ es t, getEntry (if (getEntry o key).isNone then o ++ [(key, [.str dflt])] else o)
            "name" = some (VValue.obj es :: t))) ∧
        (getEntry (if (getEntry o key).isNone then o ++ [(key, [.str dflt])] else o)
          key).isNone = false ∧
        (∀ j vs, getEntry o j = some vs →
          getEntry (if (getEntry o key).isNone then o ++ [(key, [.str dflt])] else o) j
            = some vs) := by
      intro o key dflt hwfo hngo
      by_cases hc : (getEntry o key).isNone
      · have hnone : getEntry o key = none := Option.isNone_iff_eq_none.mp hc
        simp only [hc, if_true]
        have hcfg : getEntry (o ++ [(key, [.str dflt])]) key = some [.str dflt] := by
          rw [getEntry_append, hnone]
          simp [getEntry]
        refine ⟨wfE_append_new o key _ hwfo hnone (by simp) (by simp [wfVs, wfV]), ?_, ?_, ?_⟩
        · rcases hngo with ⟨t, ht⟩ | ⟨es, t, ht⟩
          · exact Or.inl ⟨t, getEntry_some_append o _ _ _ ht⟩
          · exact Or.inr ⟨es, t, getEntry_some_append o _ _ _ ht⟩
        · simp [hcfg]
        · intro j vs hj
          exact getEntry_some_append o _ j vs hj
      · simp only [hc, if_false]
        exact ⟨hwfo, hngo, Bool.eq_false_iff.mpr hc, fun j vs hj => hj⟩
    obtain ⟨hw2, hng2, hc2, hpr2⟩ := step o1 "config" "" hwf1 hng
    obtain ⟨hw3, hng3, hp3, hpr3⟩ := step
      (if (getEntry o1 "config").isNone then o1 ++ [("config", [.str ""])] else o1)
      "priority" "0" hw2 hng2
    refine ⟨hw3, hng3, ?_, hp3⟩
    rcases hEx : getEntry (if (getEntry o1 "config").isNone = true
        then o1 ++ [("config", [VValue.str ""])] else o1) "config" with _ | vs
    · rw [hEx] at hc2
      simp at hc2
    · rw [hpr3 "config" vs hEx]
      simp
  have idem : ∀ b' : Entries,
      ((∃ t, getEntry b' "name" = some (VValue.str tool :: t)) ∨
        (∃ es t, getEntry b' "name" = some (VValue.obj es :: t))) →
      (getEntry b' "config").isNone = false → (getEntry b' "priority").isNone = false →
      setCompatAt tool b' = some b' := by
    intro b' hng hc hp
    unfold setCompatAt
    rcases hng with ⟨t, ht⟩ | ⟨es, t, ht⟩
    · rw [ht]
      rw [setFirstVal_same _ _ _ t ht]
      simp [hc, hp]
    · rw [ht]
      simp [hc, hp]
  unfold setCompatAt at h
  match hgn : getEntry a "name" with
  | some (.str s :: t) =>
    rw [hgn] at h
    simp only [Option.some.injEq] at h
    have ho1 : wfE (setFirstVal a "name" (.str tool)) = true :=
      wfE_setFirstVal a _ _ hwf (by simp [wfV])
    have hng1 : (∃ t', getEntry (setFirstVal a "name" (.str tool)) "name"
        = some (VValue.str tool :: t')) ∨
        (∃ es t', getEntry (setFirstVal a "name" (.str tool)) "name"
          = some (VValue.obj es :: t')) := by
      left
      refine ⟨t, ?_⟩
      rw [getEntry_setFirstVal_self, hgn]
      simp [setHead]
    obtain ⟨hw, hng', hc', hp'⟩ := post _ ho1 hng1
    rw [h] at hw hng' hc' hp'
    exact ⟨hw, idem b hng' hc' hp'⟩
  | some (.obj es :: t) =>
    rw [hgn] at h
    simp only [Option.some.injEq] at h
    have hng1 : (∃ t', getEntry a "name" = some (VValue.str tool :: t')) ∨
        (∃ es' t', getEntry a "name" = some (VValue.obj es' :: t')) := Or.inr ⟨es, t, hgn⟩
    obtain ⟨hw, hng', hc', hp'⟩ := post a hwf hng1
    rw [h] at hw hng' hc' hp'
    exact ⟨hw, idem b hng' hc' hp'⟩
  | some [] =>
    have := (getEntry_wf a _ _ hwf hgn).1
    simp at this
  | none =>
    rw [hgn] at h
    simp only [Option.some.injEq] at h
    have ho1 : wfE (a ++ [("name", [.str tool])]) = true :=
      wfE_append_new a _ _ hwf hgn (by simp) (by simp [wfVs, wfV])
    have hng1 : (∃ t', getEntry (a ++ [("name", [.str tool])]) "name"
        = some (VValue.str tool :: t')) ∨
        (∃ es t', getEntry (a ++ [("name", [.str tool])]) "name"
          = some (VValue.obj es :: t')) := by
      left
      refine ⟨[], ?_⟩
      rw [getEntry_append, hgn]
      simp [getEntry]
    obtain ⟨hw, hng', hc', hp'⟩ := post _ ho1 hng1
    rw [h] at hw hng' hc' hp'
    exact ⟨hw, idem b hng' hc' hp'⟩

/-! Idempotence at the document level. -/

theorem innerWrapper_congr (a b : Entries)
    (h : getEntry a "UserLocalConfigStore" = getEntry b "UserLocalConfigStore") :
    innerWrapper a = innerWrapper b := by
  unfold innerWrapper
  rw [h]

theorem updateAtRoot_obj (x : Vdf) (upd : Entries → Option Entries) (y : Vdf)
    (h : updateAtRoot x upd = some y) : ∃ es, y.value = .obj es := by
  simp only [updateAtRoot] at h
  match hw : innerWrapper (match x.value with | .obj es => es | .str _ => []) with
  | some inner =>
    simp only [hw] at h
    match hu : upd inner with
    | none => simp [hu] at h
    | some inner' =>
      simp only [hu] at h
      simp only [Option.map_some', Option.some.injEq] at h
      exact ⟨_, by rw [← h]⟩
  | none =>
    simp only [hw] at h
    match hu : upd (match x.value with | .obj es => es | .str _ => []) with
    | none => simp [hu] at h
    | some root' =>
      simp only [hu] at h
      simp only [Option.map_some', Option.some.injEq] at h
      exact ⟨root', by rw [← h]⟩

theorem wfE_root_of_wfVdf (x : Vdf) (hx : wfVdf x = true) :
    wfE (match x.value with | .obj es => es | .str _ => []) = true := by
  match x with
  | ⟨k, .obj es⟩ => simpa [wfVdf, wfV] using hx
  | ⟨k, .str s⟩ => simp [wfE]

theorem updateAtRoot_idem (x y : Vdf) (upd : Entries → Option Entries)
    (hx : wfVdf x = true)
    (hupd : ∀ a b, wfE a = true → upd a = some b → wfE b = true ∧ upd b = some b)
    (hframe : ∀ a b, upd a = some b →
      getEntry b "UserLocalConfigStore" = getEntry a "UserLocalConfigStore")
    (h : updateAtRoot x upd = some y) :
    wfVdf y = true ∧ updateAtRoot y upd = some y := by
  have hroot : wfE (match x.value with | .obj es => es | .str _ => []) = true :=
    wfE_root_of_wfVdf x hx
  simp only [updateAtRoot] at h
  match hg : getEntry (match x.value with | .obj es => es | .str _ => [])
      "UserLocalConfigStore" with
  | some (.obj inner :: t) =>
    have hw : innerWrapper (match x.value with | .obj es => es | .str _ => []) = some inner := by
      unfold innerWrapper
      rw [hg]
    simp only [hw] at h
    match hu : upd inner with
    | none => simp [hu] at h
    | some inner' =>
      simp only [hu] at h
      simp only [Option.map_some', Option.some.injEq] at h
      have hwfi : wfE inner = true := wfE_of_getEntry_obj _ _ inner t hroot hg
      obtain ⟨hwfi', hidem⟩ := hupd inner inner' hwfi hu
      have hg' : getEntry (setFirstVal (match x.value with | .obj es => es | .str _ => [])
          "UserLocalConfigStore" (.obj inner')) "UserLocalConfigStore"
          = some (.obj inner' :: t) := by
        rw [getEntry_setFirstVal_self, hg]
        simp [setHead]
      have hy : y.value = .obj (setFirstVal (match x.value with | .obj es => es | .str _ => [])
          "UserLocalConfigStore" (.obj inner')) := by rw [← h]
      constructor
      · rw [wfVdf, hy]
        simpa [wfV] using
          wfE_setFirstVal _ "UserLocalConfigStore" (.obj inner') hroot (by simpa [wfV] using hwfi')
      · simp only [updateAtRoot]
        have hw' : innerWrapper (match y.value with | .obj es => es | .str _ => [])
            = some inner' := by
          rw [hy]
          unfold innerWrapper
          rw [hg']
        simp only [hw', hidem]
        simp only [Option.map_some', Option.some.injEq]
        have hkey : y.key = x.key := by rw [← h]
        rw [hy, hkey]
        rw [setFirstVal_same _ _ _ t hg']
        rw [← h]
  | some (.str s :: t) =>
    have hw : innerWrapper (match x.value with | .obj es => es | .str _ => []) = none := by
      unfold innerWrapper
      rw [hg]
    simp only [hw] at h
    match hu : upd (match x.value with | .obj es => es | .str _ => []) with
    | none => simp [hu] at h
    | some root' =>
      simp only [hu] at h
      simp only [Option.map_some', Option.some.injEq] at h
      obtain ⟨hwf', hidem⟩ := hupd _ root' hroot hu
      have hfr := hframe _ root' hu
      have hy : y.value = .obj root' := by rw [← h]
      constructor
      · rw [wfVdf, hy]
        simpa [wfV] using hwf'
      · simp only [updateAtRoot]
        have hw' : innerWrapper (match y.value with | .obj es => es | .str _ => []) = none := by
          rw [hy]
          unfold innerWrapper
          rw [hfr, hg]
        simp only [hw']
        have : (match y.value with | .obj es => es | .str _ => []) = root' := by rw [hy]
        rw [this, hidem]
        simp only [Option.map_some', Option.some.injEq]
        have hkey : y.key = x.key := by rw [← h]
        rw [hkey, ← h]
  | some [] =>
    have hw : innerWrapper (match x.value with | .obj es => es | .str _ => []) = none := by
      unfold innerWrapper
      rw [hg]
    simp only [hw] at h
    match hu : upd (match x.value with | .obj es => es | .str _ => []) with
    | none => simp [hu] at h
    | some root' =>
      simp only [hu] at h
      simp only [Option.map_some', Option.some.injEq] at h
      obtain ⟨hwf', hidem⟩ := hupd _ root' hroot hu
      have hfr := hframe _ root' hu
      have hy : y.value = .obj root' := by rw [← h]
      constructor
      · rw [wfVdf, hy]
        simpa [wfV] using hwf'
      · simp only [updateAtRoot]
        have hw' : innerWrapper (match y.value with | .obj es => es | .str _ => []) = none := by
          rw [hy]
          unfold innerWrapper
          rw [hfr, hg]
        simp only [hw']
        have : (match y.value with | .obj es => es | .str _ => []) = root' := by rw [hy]
        rw [this, hidem]
        simp only [Option.map_some', Option.some.injEq]
        have hkey : y.key = x.key := by rw [← h]
        rw [hkey, ← h]
  | none =>
    have hw : innerWrapper (match x.value with | .obj es => es | .str _ => []) = none := by
      unfold innerWrapper
      rw [hg]
    simp only [hw] at h
    match hu : upd (match x.value with | .obj es => es | .str _ => []) with
    | none => simp [hu] at h
    | some root' =>
      simp only [hu] at h
      simp only [Option.map_some', Option.some.injEq] at h
      obtain ⟨hwf', hidem⟩ := hupd _ root' hroot hu
      have hfr := hframe _ root' hu
      have hy : y.value = .obj root' := by rw [← h]
      constructor
      · rw [wfVdf, hy]
        simpa [wfV] using hwf'
      · simp only [updateAtRoot]
        have hw' : innerWrapper (match y.value with | .obj es => es | .str _ => []) = none := by
          rw [hy]
          unfold innerWrapper
          rw [hfr, hg]
        simp only [hw']
        have : (match y.value with | .obj es => es | .str _ => []) = root' := by rw [hy]
        rw [this, hidem]
        simp only [Option.map_some', Option.some.injEq]
        have hkey : y.key = x.key := by rw [← h]
        rw [hkey, ← h]

theorem updateLaunchOptionsVdf_idem (x y : Vdf) (appId : Nat) (value : String)
    (hx : wfVdf x = true) (h : updateLaunchOptionsVdf x appId value = some y) :
    wfVdf y = true ∧ updateLaunchOptionsVdf y appId value = some y := by
  unfold updateLaunchOptionsVdf at h ⊢
  refine updateAtRoot_idem x y _ hx ?_ ?_ h
  · intro a b ha hab
    exact descend_wf_idem _ (setLaunchAt_hyp value) _ a b ha hab
  · intro a b hab
    exact descend_frame _ "Software" _ a b "UserLocalConfigStore" (by decide) hab

theorem updateCompatToolVdf_idem (x y : Vdf) (appId : Nat) (value : Option String)
    (hx : wfVdf x = true) (h : updateCompatToolVdf x appId value = some y) :
    wfVdf y = true ∧ updateCompatToolVdf y appId value = some y := by
  unfold updateCompatToolVdf at h ⊢
  match value with
  | some tool =>
    refine updateAtRoot_idem x y _ hx ?_ ?_ h
    · intro a b ha hab
      exact descend_wf_idem _ (setCompatAt_hyp tool) _ a b ha hab
    · intro a b hab
      exact descend_frame _ "Software" _ a b "UserLocalConfigStore" (by decide) hab
  | none =>
    refine updateAtRoot_idem x y _ hx ?_ ?_ h
    · intro a b ha hab
      exact descend_wf_idem _ (removeAt_hyp (toString appId)) _ a b ha hab
    · intro a b hab
      exact descend_frame _ "Software" _ a b "UserLocalConfigStore" (by decide) hab

theorem parseOrDefault_eq (s : String) (y : Vdf) (h : parseVdf s = some y)
    (es : Entries) (hes : y.value = .obj es) : parseOrDefault s = y := by
  unfold parseOrDefault
  rw [h]
  match y, hes with
  | ⟨k, .obj es'⟩, _ => simp

theorem updateLaunchOptions_idem (d : String) (appId : Nat) (value : String) :
    (updateLaunchOptions d appId value).bind (fun d' => updateLaunchOptions d' appId value)
      = updateLaunchOptions d appId value := by
  unfold updateLaunchOptions
  match hy : updateLaunchOptionsVdf (parseOrDefault d) appId value with
  | none => simp [hy]
  | some y =>
    obtain ⟨hwfy, hidem⟩ :=
      updateLaunchOptionsVdf_idem (parseOrDefault d) y appId value (parseOrDefault_wf d) hy
    obtain ⟨es, hes⟩ := updateAtRoot_obj (parseOrDefault d) _ y hy
    have hpd : parseOrDefault (renderVdf y) = y :=
      parseOrDefault_eq _ y (parseVdf_renderVdf y hwfy) es hes
    simp only [hy, Option.map_some', Option.some_bind]
    rw [hpd, hidem]
    simp

theorem updateCompatTool_idem (d : String) (appId : Nat) (value : Option String) :
    (updateCompatTool d appId value).bind (fun d' => updateCompatTool d' appId value)
      = updateCompatTool d appId value := by
  unfold updateCompatTool
  match hy : updateCompatToolVdf (parseOrDefault d) appId value with
  | none => simp [hy]
  | some y =>
    obtain ⟨hwfy, hidem⟩ :=
      updateCompatToolVdf_idem (parseOrDefault d) y appId value (parseOrDefault_wf d) hy
    obtain ⟨es, hes⟩ : ∃ es, y.value = .obj es := by
      unfold updateCompatToolVdf at hy
      match value, hy with
      | some tool, hy => exact updateAtRoot_obj (parseOrDefault d) _ y hy
      | none, hy => exact updateAtRoot_obj (parseOrDefault d) _ y hy
    have hpd : parseOrDefault (renderVdf y) = y :=
      parseOrDefault_eq _ y (parseVdf_renderVdf y hwfy) es hes
    simp only [hy, Option.map_some', Option.some_bind]
    rw [hpd, hidem]
    simp

/-- C1: the KV-codec updater is idempotent: for every input text d, app id k
and value v, applying update_launch_options twice with the same key and value
yields byte-identical output to applying it once (a run that panics yields no
output either time), and likewise for update_compat_tool. -/
theorem update_codec_idempotent :
    (∀ (d : String) (appId : Nat) (value : String),
      (updateLaunchOptions d appId value).bind (fun d' => updateLaunchOptions d' appId value)
        = updateLaunchOptions d appId value) ∧
    (∀ (d : String) (appId : Nat) (value : Option String),
      (updateCompatTool d appId value).bind (fun d' => updateCompatTool d' appId value)
        = updateCompatTool d appId value) :=
  ⟨updateLaunchOptions_idem, updateCompatTool_idem⟩

/-! The set-then-get round trip. -/

theorem updateLaunchOptionsVdf_reads (x y : Vdf) (appId : Nat) (value : String)
    (hx : wfVdf x = true)
    (hy : updateLaunchOptionsVdf x appId value = some y)
    (hb : launchSlotBlocked x appId = false) :
    ∃ yroot app' t, y.value = .obj yroot ∧
      getObjAt (match innerWrapper yroot with | some i => i | none => yroot)
          ["Software", "Valve", "Steam", "apps", toString appId] = some app' ∧
      getEntry app' "LaunchOptions" = some (.str value :: t) := by
  have hroot : wfE (match x.value with | .obj es => es | .str _ => []) = true :=
    wfE_root_of_wfVdf x hx
  unfold updateLaunchOptionsVdf at hy
  simp only [updateAtRoot] at hy
  unfold launchSlotBlocked at hb
  match hg : getEntry (match x.value with | .obj es => es | .str _ => [])
      "UserLocalConfigStore" with
  | some (.obj inner :: t0) =>
    have hw : innerWrapper (match x.value with | .obj es => es | .str _ => []) = some inner := by
      unfold innerWrapper
      rw [hg]
    simp only [hw] at hy hb
    match hdi : descend inner ["Software", "Valve", "Steam", "apps", toString appId]
        (setLaunchAt value) with
    | none => simp [hdi] at hy
    | some inner' =>
      simp only [hdi, Option.map_some', Option.some.injEq] at hy
      obtain ⟨app', t, h1, h2⟩ := descend_setLaunch value _ inner inner' hdi hb
      refine ⟨setFirstVal (match x.value with | .obj es => es | .str _ => [])
        "UserLocalConfigStore" (.obj inner'), app', t, by rw [← hy], ?_, h2⟩
      have hg' : getEntry (setFirstVal (match x.value with | .obj es => es | .str _ => [])
          "UserLocalConfigStore" (.obj inner')) "UserLocalConfigStore"
          = some (.obj inner' :: t0) := by
        rw [getEntry_setFirstVal_self, hg]
        simp [setHead]
      have hw' : innerWrapper (setFirstVal (match x.value with | .obj es => es | .str _ => [])
          "UserLocalConfigStore" (.obj inner')) = some inner' := by
        unfold innerWrapper
        rw [hg']
      rw [hw']
      exact h1
  | some (.str s :: t0) =>
    have hw : innerWrapper (match x.value with | .obj es => es | .str _ => []) = none := by
      unfold innerWrapper
      rw [hg]
    simp only [hw] at hy hb
    match hdi : descend (match x.value with | .obj es => es | .str _ => [])
        ["Software", "Valve", "Steam", "apps", toString appId] (setLaunchAt value) with
    | none => simp [hdi] at hy
    | some root' =>
      simp only [hdi, Option.map_some', Option.some.injEq] at hy
      obtain ⟨app', t, h1, h2⟩ := descend_setLaunch value _ _ root' hdi hb
      refine ⟨root', app', t, by rw [← hy], ?_, h2⟩
      have hfr : getEntry root' "UserLocalConfigStore"
          = getEntry (match x.value with | .obj es => es | .str _ => [])
            "UserLocalConfigStore" :=
        descend_frame _ "Software" _ _ root' "UserLocalConfigStore" (by decide) hdi
      have hw' : innerWrapper root' = none := by
        unfold innerWrapper
        rw [hfr, hg]
      rw [hw']
      exact h1
  | some [] =>
    have hw : innerWrapper (match x.value with | .obj es => es | .str _ => []) = none := by
      unfold innerWrapper
      rw [hg]
    simp only [hw] at hy hb
    match hdi : descend (match x.value with | .obj es => es | .str _ => [])
        ["Software", "Valve", "Steam", "apps", toString appId] (setLaunchAt value) with
    | none => simp [hdi] at hy
    | some root' =>
      simp only [hdi, Option.map_some', Option.some.injEq] at hy
      obtain ⟨app', t, h1, h2⟩ := descend_setLaunch value _ _ root' hdi hb
      refine ⟨root', app', t, by rw [← hy], ?_, h2⟩
      have hfr : getEntry root' "UserLocalConfigStore"
          = getEntry (match x.value with | .obj es => es | .str _ => [])
            "UserLocalConfigStore" :=
        descend_frame _ "Software" _ _ root' "UserLocalConfigStore" (by decide) hdi
      have hw' : innerWrapper root' = none := by
        unfold innerWrapper
        rw [hfr, hg]
      rw [hw']
      exact h1
  | none =>
    have hw : innerWrapper (match x.value with | .obj es => es | .str _ => []) = none := by
      unfold innerWrapper
      rw [hg]
    simp only [hw] at hy hb
    match hdi : descend (match x.value with | .obj es => es | .str _ => [])
        ["Software", "Valve", "Steam", "apps", toString appId] (setLaunchAt value) with
    | none => simp [hdi] at hy
    | some root' =>
      simp only [hdi, Option.map_some', Option.some.injEq] at hy
      obtain ⟨app', t, h1, h2⟩ := descend_setLaunch value _ _ root' hdi hb
      refine ⟨root', app', t, by rw [← hy], ?_, h2⟩
      have hfr : getEntry root' "UserLocalConfigStore"
          = getEntry (match x.value with | .obj es => es | .str _ => [])
            "UserLocalConfigStore" :=
        descend_frame _ "Software" _ _ root' "UserLocalConfigStore" (by decide) hdi
      have hw' : innerWrapper root' = none := by
        unfold innerWrapper
        rw [hfr, hg]
      rw [hw']
      exact h1

theorem parseLaunchOptions_of (y : Vdf) (appId : Nat) (value : String)
    (hwfy : wfVdf y = true) (yroot app' : Entries) (t : List VValue)
    (hval : y.value = .obj yroot)
    (hobj : getObjAt (match innerWrapper yroot with | some i => i | none => yroot)
      ["Software", "Valve", "Steam", "apps", toString appId] = some app')
    (hlo : getEntry app' "LaunchOptions" = some (.str value :: t)) :
    parseLaunchOptions (renderVdf y) appId = some value := by
  unfold parseLaunchOptions
  rw [parseVdf_renderVdf y hwfy]
  match y, hval with
  | ⟨k, .obj yroot'⟩, hval =>
    have hroots : yroot' = yroot := by
      simpa using hval
    subst hroots
    simp only
    match hw : innerWrapper yroot' with
    | some i =>
      rw [hw] at hobj
      rw [hobj]
      simp [hlo]
    | none =>
      rw [hw] at hobj
      rw [hobj]
      simp [hlo]

theorem set_get_amended_aux (d : String) (appId : Nat) (value : String) (d' : String)
    (h : updateLaunchOptions d appId value = some d')
    (hb : launchSlotBlocked (parseOrDefault d) appId = false) :
    parseLaunchOptions d' appId = some value := by
  unfold updateLaunchOptions at h
  match hy : updateLaunchOptionsVdf (parseOrDefault d) appId value with
  | none => rw [hy] at h; simp at h
  | some y =>
    rw [hy] at h
    simp only [Option.map_some', Option.some.injEq] at h
    subst h
    have hwfy : wfVdf y = true :=
      (updateLaunchOptionsVdf_idem (parseOrDefault d) y appId value (parseOrDefault_wf d) hy).1
    obtain ⟨yroot, app', t, hval, hobj, hlo⟩ :=
      updateLaunchOptionsVdf_reads (parseOrDefault d) y appId value (parseOrDefault_wf d) hy hb
    exact parseLaunchOptions_of y appId value hwfy yroot app' t hval hobj hlo

/-- C2 counterexample: the claim fails as stated: on the well-formed input
document binding Software to a plain string, update_launch_options does not
return Some — the unwrap in its walk panics (modelled as none). -/
theorem set_get_roundtrip_cex :
    updateLaunchOptions "\"UserLocalConfigStore\" \x7b \"Software\" \"x\" \x7d" 123 "-novid"
      = none := by
  rfl

/-- C2 (amended): whenever update_launch_options(d,k,v) completes with
Some(d') and the parsed form of d does not already bind the app's
LaunchOptions slot to a nested object (the one case the updater silently
leaves unwritten), parse_launch_options(d',k) returns Some(v); in particular
updating the empty document round-trips. -/
theorem set_get_roundtrip_amended (d : String) (appId : Nat) (value : String) (d' : String)
    (h : updateLaunchOptions d appId value = some d')
    (hb : launchSlotBlocked (parseOrDefault d) appId = false) :
    parseLaunchOptions d' appId = some value :=
  set_get_amended_aux d appId value d' h hb

/-- C2 witness: scenario C: updating the empty document with -novid yields a
document from which the parser returns -novid. -/
theorem set_get_roundtrip_amended_witness :
    parseLaunchOptions ((updateLaunchOptions "" 123 "-novid").getD "") 123 = some "-novid" :=
  set_get_roundtrip_amended "" 123 "-novid" ((updateLaunchOptions "" 123 "-novid").getD "")
    (by rfl) (by rfl)

/-! The identity resolver: first flagged entry wins, identifiers are narrowed
to their low 32 bits, and unparsable identifiers pass through unchanged. -/

theorem findFlagged_skip (pre : Entries) (e : String × List VValue) (post : Entries)
    (hpre : ∀ p ∈ pre, entryFlagged p = false) :
    findFlagged (pre ++ e :: post) = findFlagged (e :: post) := by
  induction pre with
  | nil => rfl
  | cons q rest ih =>
    obtain ⟨uid, vs⟩ := q
    have hq : entryFlagged (uid, vs) = false := hpre (uid, vs) (by simp)
    simp only [List.cons_append, findFlagged, hq, if_false]
    exact ih (fun p hp => hpre p (by simp [hp]))

/-- C7: active-identity selection and narrowing: the resolver returns the
identifier of the first login-history entry flagged MostRecent 1 (even when
unflagged entries precede it), narrowed from its 64-bit form to the low 32
bits: for an identifier parsing as an unsigned 64-bit integer v, the returned
identifier is v mod 2^32. -/
theorem most_recent_user_narrowing
    (c : String) (x : Vdf) (users pre post : Entries) (uid : String) (vs : List VValue)
    (files : List (Option String)) (v : Nat)
    (hp : parseVdf c = some x)
    (hu : usersObjOf x = some users)
    (hsplit : users = pre ++ (uid, vs) :: post)
    (hpre : ∀ p ∈ pre, entryFlagged p = false)
    (hflag : entryFlagged (uid, vs) = true)
    (hparse : parseU64 uid = some v) :
    mostRecentUserId (some c :: files) = some (toString (v % 2 ^ 32)) := by
  simp only [mostRecentUserId, hp, hu]
  rw [hsplit, findFlagged_skip pre _ post hpre]
  simp [findFlagged, hflag, steamidToAccountid, hparse]

/-- C7 witness: a login-history manifest listing two identities with only the
second flagged most recent resolves to the second's narrowed identifier. -/
theorem most_recent_user_narrowing_witness :
    mostRecentUserId [some
      "\"users\" \x7b \"111\" \x7b \"MostRecent\" \"0\" \x7d \"76561198001481842\" \x7b \"MostRecent\" \"1\" \x7d \x7d"]
      = some (toString (76561198001481842 % 2 ^ 32)) :=
  most_recent_user_narrowing
    "\"users\" \x7b \"111\" \x7b \"MostRecent\" \"0\" \x7d \"76561198001481842\" \x7b \"MostRecent\" \"1\" \x7d \x7d"
    ⟨"users", .obj [("111", [.obj [("MostRecent", [.str "0"])]]),
      ("76561198001481842", [.obj [("MostRecent", [.str "1"])]])]⟩
    [("111", [.obj [("MostRecent", [.str "0"])]]),
      ("76561198001481842", [.obj [("MostRecent", [.str "1"])]])]
    [("111", [.obj [("MostRecent", [.str "0"])]])]
    []
    "76561198001481842"
    [.obj [("MostRecent", [.str "1"])]]
    [] 76561198001481842
    (by rfl) (by rfl) (by rfl)
    (by intro p hp; simp at hp; subst hp; rfl)
    (by rfl) (by rfl)

/-- C10: when the flagged entry's identifier does not parse as an unsigned
64-bit integer, the resolver neither fails nor skips the entry: it returns
the raw identifier string unchanged, with no narrowing applied. -/
theorem most_recent_user_unparsed
    (c : String) (x : Vdf) (users pre post : Entries) (uid : String) (vs : List VValue)
    (files : List (Option String))
    (hp : parseVdf c = some x)
    (hu : usersObjOf x = some users)
    (hsplit : users = pre ++ (uid, vs) :: post)
    (hpre : ∀ p ∈ pre, entryFlagged p = false)
    (hflag : entryFlagged (uid, vs) = true)
    (hparse : parseU64 uid = none) :
    mostRecentUserId (some c :: files) = some uid := by
  simp only [mostRecentUserId, hp, hu]
  rw [hsplit, findFlagged_skip pre _ post hpre]
  simp [findFlagged, hflag, steamidToAccountid, hparse]

/-- C10 witness: a flagged entry carrying a non-numeric identifier resolves
to the raw identifier string. -/
theorem most_recent_user_unparsed_witness :
    mostRecentUserId [some "\"users\" \x7b \"notanumber\" \x7b \"MostRecent\" \"1\" \x7d \x7d"]
      = some "notanumber" :=
  most_recent_user_unparsed
    "\"users\" \x7b \"notanumber\" \x7b \"MostRecent\" \"1\" \x7d \x7d"
    ⟨"users", .obj [("notanumber", [.obj [("MostRecent", [.str "1"])]])]⟩
    [("notanumber", [.obj [("MostRecent", [.str "1"])]])]
    [] [] "notanumber" [.obj [("MostRecent", [.str "1"])]] []
    (by rfl) (by rfl) (by rfl)
    (by intro p hp; simp at hp)
    (by rfl) (by rfl)

/-! The localconfig-path fallback. -/

/-- C4 counterexample: the claim fails as stated: with no login-history entry
flagged most recent and exactly one per-user settings file existing, the
resolver returns none immediately (the flagged-user requirement precedes the
fallback scan), not the single existing file. -/
theorem default_localconfig_no_flag_cex :
    defaultLocalconfigPath
      ⟨[some "\"users\" \x7b \"111\" \x7b \"MostRecent\" \"0\" \x7d \x7d"],
        [⟨"ud", ["111"]⟩],
        fun p => if p = ["ud", "111", "config", "localconfig.vdf"]
          then some ⟨some "", 0⟩ else none⟩ = none ∧
    scanExisting
      ⟨[some "\"users\" \x7b \"111\" \x7b \"MostRecent\" \"0\" \x7d \x7d"],
        [⟨"ud", ["111"]⟩],
        fun p => if p = ["ud", "111", "config", "localconfig.vdf"]
          then some ⟨some "", 0⟩ else none⟩
      = [["ud", "111", "config", "localconfig.vdf"]] ∧
    mostRecentUserId [some "\"users\" \x7b \"111\" \x7b \"MostRecent\" \"0\" \x7d \x7d"]
      = none :=
  ⟨rfl, rfl, rfl⟩

/-- C4 (amended): the localconfig-path lookup requires a flagged most-recent
user: with none it returns nothing. The fallback scan over all userdata roots
runs when the flagged user id is found but no userdata root holds that user's
directory; it then returns the per-user settings file if exactly one exists
across all roots and deliberately returns nothing when more than one
exists. -/
theorem default_localconfig_fallback (w : SteamWorld) (uid : String) :
    (mostRecentUserId w.loginFiles = none → defaultLocalconfigPath w = none) ∧
    (mostRecentUserId w.loginFiles = some uid →
      (∀ d ∈ w.userdata, uid ∉ d.entries) →
      (∀ p, scanExisting w = [p] → defaultLocalconfigPath w = some p) ∧
      (∀ p q rest, scanExisting w = p :: q :: rest → defaultLocalconfigPath w = none)) := by
  constructor
  · intro h
    simp only [defaultLocalconfigPath, h]
  · intro h hnot
    have hfind : w.userdata.find? (fun d => d.entries.contains uid) = none := by
      rw [List.find?_eq_none]
      intro d hd habs
      exact hnot d hd (List.elem_iff.mp habs)
    constructor
    · intro p hp
      simp only [defaultLocalconfigPath, h, hfind, hp]
    · intro p q rest hpq
      simp only [defaultLocalconfigPath, h, hfind, hpq]

/-- C4 witness: with a flagged user whose directory is absent, a lone
existing settings file is returned, while two existing files yield
nothing. -/
theorem default_localconfig_fallback_witness :
    defaultLocalconfigPath
      ⟨[some "\"users\" \x7b \"222\" \x7b \"MostRecent\" \"1\" \x7d \x7d"],
        [⟨"ud", ["111"]⟩],
        fun p => if p = ["ud", "111", "config", "localconfig.vdf"]
          then some ⟨some "", 0⟩ else none⟩
      = some ["ud", "111", "config", "localconfig.vdf"] ∧
    defaultLocalconfigPath
      ⟨[some "\"users\" \x7b \"222\" \x7b \"MostRecent\" \"1\" \x7d \x7d"],
        [⟨"ud", ["111", "112"]⟩],
        fun p => if p = ["ud", "111", "config", "localconfig.vdf"] ∨
            p = ["ud", "112", "config", "localconfig.vdf"]
          then some ⟨some "", 0⟩ else none⟩ = none :=
  ⟨((default_localconfig_fallback
      ⟨[some "\"users\" \x7b \"222\" \x7b \"MostRecent\" \"1\" \x7d \x7d"],
        [⟨"ud", ["111"]⟩],
        fun p => if p = ["ud", "111", "config", "localconfig.vdf"]
          then some ⟨some "", 0⟩ else none⟩ "222").2 (by rfl)
      (by intro d hd; simp at hd; subst hd; decide)).1
      ["ud", "111", "config", "localconfig.vdf"] (by rfl),
    ((default_localconfig_fallback
      ⟨[some "\"users\" \x7b \"222\" \x7b \"MostRecent\" \"1\" \x7d \x7d"],
        [⟨"ud", ["111", "112"]⟩],
        fun p => if p = ["ud", "111", "config", "localconfig.vdf"] ∨
            p = ["ud", "112", "config", "localconfig.vdf"]
          then some ⟨some "", 0⟩ else none⟩ "222").2 (by rfl)
      (by intro d hd; simp at hd; subst hd; decide)).2
      ["ud", "111", "config", "localconfig.vdf"]
      ["ud", "112", "config", "localconfig.vdf"] [] (by rfl)⟩

/-! The whole-result time-to-live caches. -/

/-- C5: whole-result cache staleness: for both the library cache and the game
cache, a call while the stored entry is younger than the five-second duration
returns the cached value unchanged with no recomputation; a call once the
entry has aged past the duration performs exactly one recomputation and
replaces the entry with the fresh result under a new timestamp. -/
theorem ttl_cache_staleness
    (libs fresh : List SteamLibrary) (gs : List GameInfo) (ts now : Nat)
    (fetch : Except SteamErr (List SteamLibrary))
    (perLib : List (Except Unit (List GameInfo))) :
    (now - ts < cacheDuration →
      getSteamLibrariesM (some (libs, ts)) now fetch = (.ok libs, some (libs, ts), 0)) ∧
    (cacheDuration ≤ now - ts → fetch = .ok fresh →
      getSteamLibrariesM (some (libs, ts)) now fetch = (.ok fresh, some (fresh, now), 1)) ∧
    (now - ts < cacheDuration →
      loadGamesFromLibrariesM (some (gs, ts)) now perLib = (.ok gs, some (gs, ts), 0)) ∧
    (cacheDuration ≤ now - ts →
      loadGamesFromLibrariesM (some (gs, ts)) now perLib
        = (.ok (combineGames perLib), some (combineGames perLib, now), 1)) := by
  refine ⟨?_, ?_, ?_, ?_⟩
  · intro h
    simp [getSteamLibrariesM, h]
  · intro h hf
    have h' : ¬(now - ts < cacheDuration) := by omega
    simp [getSteamLibrariesM, h', hf]
  · intro h
    simp [loadGamesFromLibrariesM, h]
  · intro h
    have h' : ¬(now - ts < cacheDuration) := by omega
    simp [loadGamesFromLibrariesM, h']

/-- C5 witness: a one-second-old entry is served from cache; a ten-second-old
entry is recomputed once and replaced. -/
theorem ttl_cache_staleness_witness :
    (getSteamLibrariesM (some ([⟨["lib"]⟩], 0)) 1 (.ok [⟨["fresh"]⟩])
      = (.ok [⟨["lib"]⟩], some ([⟨["lib"]⟩], 0), 0)) ∧
    (getSteamLibrariesM (some ([⟨["lib"]⟩], 0)) 10 (.ok [⟨["fresh"]⟩])
      = (.ok [⟨["fresh"]⟩], some ([⟨["fresh"]⟩], 10), 1)) ∧
    (loadGamesFromLibrariesM (some ([], 0)) 10 [.ok [⟨7, "g", ["p"], true, 0⟩]]
      = (.ok [⟨7, "g", ["p"], true, 0⟩], some ([⟨7, "g", ["p"], true, 0⟩], 10), 1)) :=
  ⟨(ttl_cache_staleness [⟨["lib"]⟩] [⟨["fresh"]⟩] [] 0 1 (.ok [⟨["fresh"]⟩]) []).1 (by decide),
    (ttl_cache_staleness [⟨["lib"]⟩] [⟨["fresh"]⟩] [] 0 10 (.ok [⟨["fresh"]⟩]) []).2.1
      (by decide) rfl,
    (ttl_cache_staleness [] [] [] 0 10 (.error .steamNotFound)
      [.ok [⟨7, "g", ["p"], true, 0⟩]]).2.2.2 (by decide)⟩

/-! The per-file modification-time-gated cache. -/

theorem lookupC_insertC_self (m : List (FPath × ConfigEntry)) (p : FPath) (e : ConfigEntry) :
    lookupC (insertC m p e) p = some e := by
  induction m with
  | nil => simp [insertC, lookupC]
  | cons q rest ih =>
    obtain ⟨r, e'⟩ := q
    by_cases hr : r = p
    · simp [insertC, lookupC, hr]
    · simp [insertC, lookupC, hr, ih]

theorem lookupC_removeC_ne (m : List (FPath × ConfigEntry)) (q p : FPath) (h : q ≠ p) :
    lookupC (removeC m q) p = lookupC m p := by
  induction m with
  | nil => rfl
  | cons r rest ih =>
    obtain ⟨r1, e⟩ := r
    by_cases h1 : r1 = q
    · subst h1
      have hne : ¬(r1 = p) := h
      have hstep : removeC ((r1, e) :: rest) r1 = removeC rest r1 := by
        simp [removeC, List.filter_cons]
      rw [hstep, ih]
      simp [lookupC, hne]
    · have hstep : removeC ((r1, e) :: rest) q = (r1, e) :: removeC rest q := by
        simp [removeC, List.filter_cons, h1]
      rw [hstep]
      by_cases h2 : r1 = p
      · simp [lookupC, h2]
      · simp [lookupC, h2, ih]

theorem cacheInsert_lookup (limit : Nat) (hl : 1 ≤ limit) (st : CacheSt) (p : FPath)
    (c : String) (mtime : Nat) :
    lookupC (cacheInsert limit st p c mtime).cache p = some ⟨c, mtime⟩ := by
  unfold cacheInsert
  by_cases hlen : ((st.order.filter (fun q => q ≠ p)) ++ [p]).length > limit
  · simp only [hlen, if_true]
    match hf : st.order.filter (fun q => q ≠ p) with
    | [] =>
      rw [hf] at hlen
      simp at hlen
      omega
    | a :: rest =>
      rw [hf] at hlen
      simp only [List.cons_append]
      have ha : a ≠ p := by
        have : a ∈ st.order.filter (fun q => q ≠ p) := by rw [hf]; simp
        have := List.of_mem_filter this
        simpa using this
      rw [lookupC_removeC_ne _ a p ha]
      exact lookupC_insertC_self st.cache p ⟨c, mtime⟩
  · simp only [hlen, if_false]
    exact lookupC_insertC_self st.cache p ⟨c, mtime⟩

/-- C6: per-file cache correctness: the cached contents are returned (with no
disk read) exactly when the file's current modification time is no newer than
the recorded one; once the modification time has advanced past the recorded
one, the next read re-reads the file, returns the new contents (never the
cached ones), and re-caches them under the new modification time. -/
theorem read_manifest_cached_correct
    (fs : FPath → Option FileNode) (st : CacheSt) (p : FPath) (e : ConfigEntry)
    (m : Nat) (rd : Option String) (newC : String) :
    (lookupC st.cache p = some e → fs p = some ⟨rd, m⟩ → m ≤ e.modified →
      readManifestCached fs st p = (some e.contents, st, false)) ∧
    (lookupC st.cache p = some e → fs p = some ⟨some newC, m⟩ → e.modified < m →
      readManifestCached fs st p = (some newC, cacheInsert 20 st p newC m, true) ∧
      lookupC (cacheInsert 20 st p newC m).cache p = some ⟨newC, m⟩) := by
  constructor
  · intro hc hf hm
    simp [readManifestCached, cachedRead, hf, hc, hm]
  · intro hc hf hm
    have hm' : ¬(m ≤ e.modified) := by omega
    refine ⟨?_, cacheInsert_lookup 20 (by omega) st p newC m⟩
    simp [readManifestCached, cachedRead, hf, hc, hm']

/-- C6 witness: a cache entry recorded at time 5 is served while the file's
time is 5, and is re-read once the file's time advances to 6. -/
theorem read_manifest_cached_correct_witness :
    (readManifestCached (fun _ => some ⟨some "new", 5⟩) ⟨[(["f"], ⟨"old", 5⟩)], [["f"]]⟩ ["f"]
      = (some "old", ⟨[(["f"], ⟨"old", 5⟩)], [["f"]]⟩, false)) ∧
    (readManifestCached (fun _ => some ⟨some "new", 6⟩) ⟨[(["f"], ⟨"old", 5⟩)], [["f"]]⟩ ["f"]
      = (some "new", cacheInsert 20 ⟨[(["f"], ⟨"old", 5⟩)], [["f"]]⟩ ["f"] "new" 6, true)) :=
  ⟨(read_manifest_cached_correct (fun _ => some ⟨some "new", 5⟩)
      ⟨[(["f"], ⟨"old", 5⟩)], [["f"]]⟩ ["f"] ⟨"old", 5⟩ 5 (some "new") "x").1
      (by rfl) (by rfl) (by decide),
    ((read_manifest_cached_correct (fun _ => some ⟨some "new", 6⟩)
      ⟨[(["f"], ⟨"old", 5⟩)], [["f"]]⟩ ["f"] ⟨"old", 5⟩ 6 (some "new") "new").2
      (by rfl) (by rfl) (by decide)).1⟩

/-! The runtime matcher's stage order. -/

/-- C3 counterexample: the claim fails as stated: with a fuzzy library match
and an exact compatibility-tools match available, find_proton_runtime returns
the fuzzy library hit, while the claimed order (exact libraries, then exact
tool roots, then fuzzy) would return the tool root's exact hit. -/
theorem find_proton_runtime_order_cex :
    findProtonRuntime
      ⟨some [⟨["lib"], some [("GE-Proton8.0-1", true)]⟩],
        [⟨["tools"], some [("Proton 8.0", true)]⟩]⟩ "Proton 8.0"
      = some ["lib", "steamapps", "common", "GE-Proton8.0-1"] ∧
    claimedOrderSearch
      ⟨some [⟨["lib"], some [("GE-Proton8.0-1", true)]⟩],
        [⟨["tools"], some [("Proton 8.0", true)]⟩]⟩ "Proton 8.0"
      = some ["tools", "Proton 8.0"] ∧
    (["lib", "steamapps", "common", "GE-Proton8.0-1"] : FPath) ≠ ["tools", "Proton 8.0"] :=
  ⟨rfl, rfl, by decide⟩

/-- C3 (amended): find_proton_runtime tries its stages in this order and
returns the first hit: exact candidate-name match under each library's
steamapps/common, then case-insensitive substring matching across the library
directories, then per compatibility-tools root, exact candidates first and
the fuzzy scan of that same root second, before moving to the next root; it
returns none only when no stage matches, and an exactly-named installed
directory is found by the exact stage with the fuzzy stages never
consulted. -/
theorem find_proton_runtime_staged (env : RtEnv) (version : String) :
    (∀ libs p, env.libs = some libs →
      exactLibStage libs (runtimeCandidates version) = some p →
      findProtonRuntime env version = some p) ∧
    (∀ libs p, env.libs = some libs →
      exactLibStage libs (runtimeCandidates version) = none →
      fuzzyLibStage libs (lowerStr (trimStr version)) (fuzzyBase version) = some p →
      findProtonRuntime env version = some p) ∧
    (∀ libs, env.libs = some libs →
      exactLibStage libs (runtimeCandidates version) = none →
      fuzzyLibStage libs (lowerStr (trimStr version)) (fuzzyBase version) = none →
      findProtonRuntime env version
        = toolStage env.toolDirs (runtimeCandidates version) (lowerStr (trimStr version))
            (fuzzyBase version)) ∧
    (env.libs = none →
      findProtonRuntime env version
        = toolStage env.toolDirs (runtimeCandidates version) (lowerStr (trimStr version))
            (fuzzyBase version)) ∧
    (findProtonRuntime env version = none →
      toolStage env.toolDirs (runtimeCandidates version) (lowerStr (trimStr version))
        (fuzzyBase version) = none ∧
      ∀ libs, env.libs = some libs →
        exactLibStage libs (runtimeCandidates version) = none ∧
        fuzzyLibStage libs (lowerStr (trimStr version)) (fuzzyBase version) = none) := by
  refine ⟨?_, ?_, ?_, ?_, ?_⟩
  · intro libs p hl he
    simp [findProtonRuntime, hl, he]
  · intro libs p hl he hf
    simp [findProtonRuntime, hl, he, hf]
  · intro libs hl he hf
    simp [findProtonRuntime, hl, he, hf]
  · intro hl
    simp [findProtonRuntime, hl]
  · intro hn
    match hl : env.libs with
    | none =>
      simp only [findProtonRuntime, hl] at hn
      exact ⟨hn, fun libs hlibs => by cases hlibs⟩
    | some libs =>
      match he : exactLibStage libs (runtimeCandidates version) with
      | some p => simp [findProtonRuntime, hl, he] at hn
      | none =>
        match hf : fuzzyLibStage libs (lowerStr (trimStr version)) (fuzzyBase version) with
        | some p => simp [findProtonRuntime, hl, he, hf] at hn
        | none =>
          simp only [findProtonRuntime, hl, he, hf] at hn
          refine ⟨hn, fun libs' hlibs => ?_⟩
          obtain rfl := Option.some.inj hlibs
          exact ⟨he, hf⟩

/-- C3 witness: scenario D: the label Proton 8.0-5 with a directory named
exactly Proton 8.0-5 is found by the exact library stage. -/
theorem find_proton_runtime_staged_witness :
    findProtonRuntime ⟨some [⟨["lib"], some [("Proton 8.0-5", true)]⟩], []⟩ "Proton 8.0-5"
      = some ["lib", "steamapps", "common", "Proton 8.0-5"] :=
  (find_proton_runtime_staged ⟨some [⟨["lib"], some [("Proton 8.0-5", true)]⟩], []⟩
      "Proton 8.0-5").1
    [⟨["lib"], some [("Proton 8.0-5", true)]⟩]
    ["lib", "steamapps", "common", "Proton 8.0-5"] rfl (by rfl)

/-! The repair state machine. -/

theorem runBootstrap_spec (w : RepairWorld) (c : Cmd) :
    (runBootstrap w c).2 = [c] ∧ ((runBootstrap w c).1 = .ok () ↔ w.run c = .ok 0) := by
  unfold runBootstrap
  match hr : w.run c with
  | .error e => simp
  | .ok 0 => simp
  | .ok (n + 1) => simp

theorem repairPrefix_bootstrap_shape (w : RepairWorld)
    (h1 : w.pfxExists = true ∨ w.mkPfx = .ok ()) (h2 : w.mkDriveC = .ok ())
    (h3 : w.mkDos = .ok ()) : ∃ c, repairPrefix w = runBootstrap w c := by
  have hif : (if w.pfxExists then Except.ok () else w.mkPfx) = Except.ok () := by
    by_cases hp : w.pfxExists
    · simp [hp]
    · rcases h1 with h1 | h1
      · rw [h1] at hp; simp at hp
      · simp [hp, h1]
  match hv : detectProtonVersion w.versionFile w.parentVersionFile with
  | none => exact ⟨⟨.inr "wineboot", ["-u"]⟩, by simp [repairPrefix, hif, h2, h3, hv]⟩
  | some ver =>
    match hrt : findProtonRuntime w.rtEnv ver with
    | none => exact ⟨⟨.inr "wineboot", ["-u"]⟩, by simp [repairPrefix, hif, h2, h3, hv, hrt]⟩
    | some rt =>
      match hwb : findWineboot w.exeExists rt with
      | some wb =>
        exact ⟨⟨.inl wb, ["-u"]⟩, by simp [repairPrefix, hif, h2, h3, hv, hrt, hwb]⟩
      | none =>
        match hwn : findWine w.exeExists rt with
        | some wine =>
          exact ⟨⟨.inl wine, ["wineboot", "-u"]⟩,
            by simp [repairPrefix, hif, h2, h3, hv, hrt, hwb, hwn]⟩
        | none =>
          exact ⟨⟨.inr "wineboot", ["-u"]⟩,
            by simp [repairPrefix, hif, h2, h3, hv, hrt, hwb, hwn]⟩

/-- C9: repair outcome classification: repair_prefix first ensures the
pfx/drive_c/dosdevices substructure and an I/O failure there aborts with that
error before any process is invoked; failure to detect a version label or to
locate a matching runtime is not fatal and leads to invoking the system-wide
wineboot; and in every run in which a bootstrap process is invoked, exactly
one process is invoked and the function returns Ok if and only if that
process exits with status zero (an error is returned when it cannot start or
exits non-zero). -/
theorem repair_prefix_outcomes (w : RepairWorld) :
    (∀ e, w.pfxExists = false → w.mkPfx = .error e → repairPrefix w = (.error e, [])) ∧
    (∀ e, (w.pfxExists = true ∨ w.mkPfx = .ok ()) → w.mkDriveC = .error e →
      repairPrefix w = (.error e, [])) ∧
    (∀ e, (w.pfxExists = true ∨ w.mkPfx = .ok ()) → w.mkDriveC = .ok () →
      w.mkDos = .error e → repairPrefix w = (.error e, [])) ∧
    ((w.pfxExists = true ∨ w.mkPfx = .ok ()) → w.mkDriveC = .ok () → w.mkDos = .ok () →
      detectProtonVersion w.versionFile w.parentVersionFile = none →
      repairPrefix w = runBootstrap w ⟨.inr "wineboot", ["-u"]⟩) ∧
    ((w.pfxExists = true ∨ w.mkPfx = .ok ()) → w.mkDriveC = .ok () → w.mkDos = .ok () →
      ∀ ver, detectProtonVersion w.versionFile w.parentVersionFile = some ver →
      findProtonRuntime w.rtEnv ver = none →
      repairPrefix w = runBootstrap w ⟨.inr "wineboot", ["-u"]⟩) ∧
    ((w.pfxExists = true ∨ w.mkPfx = .ok ()) → w.mkDriveC = .ok () → w.mkDos = .ok () →
      ∃ c, (repairPrefix w).2 = [c] ∧ ((repairPrefix w).1 = .ok () ↔ w.run c = .ok 0)) := by
  have hifok : (w.pfxExists = true ∨ w.mkPfx = .ok ()) →
      (if w.pfxExists then Except.ok () else w.mkPfx) = Except.ok () := by
    intro h1
    by_cases hp : w.pfxExists
    · simp [hp]
    · rcases h1 with h1 | h1
      · rw [h1] at hp; simp at hp
      · simp [hp, h1]
  refine ⟨?_, ?_, ?_, ?_, ?_, ?_⟩
  · intro e h1 h2
    simp [repairPrefix, h1, h2]
  · intro e h1 h2
    simp [repairPrefix, hifok h1, h2]
  · intro e h1 h2 h3
    simp [repairPrefix, hifok h1, h2, h3]
  · intro h1 h2 h3 hv
    simp [repairPrefix, hifok h1, h2, h3, hv]
  · intro h1 h2 h3 ver hv hrt
    simp [repairPrefix, hifok h1, h2, h3, hv, hrt]
  · intro h1 h2 h3
    obtain ⟨c, hc⟩ := repairPrefix_bootstrap_shape w h1 h2 h3
    exact ⟨c, by rw [hc]; exact (runBootstrap_spec w c).1,
      by rw [hc]; exact (runBootstrap_spec w c).2⟩

/-- C9 witness: concrete worlds exercising the fatal directory failure, the
missing-runtime fallback, and the exit-status classification. -/
theorem repair_prefix_outcomes_witness :
    (repairPrefix ⟨false, .error "io", .ok (), .ok (), none, none, ⟨none, []⟩,
        fun _ => false, fun _ => .ok 0⟩ = (.error "io", [])) ∧
    (repairPrefix ⟨true, .ok (), .ok (), .ok (), some "Proton 9.0", none, ⟨none, []⟩,
        fun _ => false, fun _ => .ok 0⟩
      = runBootstrap ⟨true, .ok (), .ok (), .ok (), some "Proton 9.0", none, ⟨none, []⟩,
          fun _ => false, fun _ => .ok 0⟩ ⟨.inr "wineboot", ["-u"]⟩) ∧
    (∃ c, (repairPrefix ⟨true, .ok (), .ok (), .ok (), none, none, ⟨none, []⟩,
        fun _ => false, fun _ => .ok 1⟩).2 = [c] ∧
      ((repairPrefix ⟨true, .ok (), .ok (), .ok (), none, none, ⟨none, []⟩,
          fun _ => false, fun _ => .ok 1⟩).1 = .ok ()
        ↔ RepairWorld.run ⟨true, .ok (), .ok (), .ok (), none, none, ⟨none, []⟩,
            fun _ => false, fun _ => .ok 1⟩ c = .ok 0)) :=
  ⟨(repair_prefix_outcomes ⟨false, .error "io", .ok (), .ok (), none, none, ⟨none, []⟩,
      fun _ => false, fun _ => .ok 0⟩).1 "io" rfl rfl,
    (repair_prefix_outcomes ⟨true, .ok (), .ok (), .ok (), some "Proton 9.0", none, ⟨none, []⟩,
      fun _ => false, fun _ => .ok 0⟩).2.2.2.2.1 (Or.inl rfl) rfl rfl "Proton 9.0" rfl rfl,
    (repair_prefix_outcomes ⟨true, .ok (), .ok (), .ok (), none, none, ⟨none, []⟩,
      fun _ => false, fun _ => .ok 1⟩).2.2.2.2.2 (Or.inl rfl) rfl rfl⟩

/-! The write-back paths touch exactly one file and pre-populate its cache
entry. -/

theorem cachedRead_none_state (limit : Nat) (fs : FPath → Option FileNode) (st : CacheSt)
    (p : FPath) (h : (cachedRead limit fs st p).1 = none) :
    (cachedRead limit fs st p).2.1 = st := by
  match hf : fs p with
  | none => simp [cachedRead, hf]
  | some node =>
    match hl : lookupC st.cache p with
    | some e =>
      by_cases hm : e.modified ≥ node.mtime
      · simp [cachedRead, hf, hl, hm] at h
      · match hr : node.read with
        | none => simp [cachedRead, hf, hl, hm, hr]
        | some c => simp [cachedRead, hf, hl, hm, hr] at h
    | none =>
      match hr : node.read with
      | none => simp [cachedRead, hf, hl, hr]
      | some c => simp [cachedRead, hf, hl, hr] at h

theorem setLoop_first (upd : String → Option String) (wt : Nat) (w : SteamWorld)
    (pre : List FPath) :
    ∀ (cache cache' : CacheSt) (p : FPath) (rest : List FPath) (c u : String) (b : Bool),
      (∀ q ∈ pre, (readLocalconfigCached w.files cache q).1 = none) →
      readLocalconfigCached w.files cache p = (some c, cache', b) →
      upd c = some u →
      setLoop upd wt w cache (pre ++ p :: rest)
        = .ok (writeFile w p u wt)
            (updateLocalconfigCache (writeFile w p u wt).files cache' p u) p := by
  induction pre with
  | nil =>
    intro cache cache' p rest c u b hpre hread hupd
    simp only [List.nil_append, setLoop, hread, hupd]
  | cons q pre' ih =>
    intro cache cache' p rest c u b hpre hread hupd
    have hq := hpre q (by simp)
    match hrq : readLocalconfigCached w.files cache q with
    | (some cq, cq1, bq) => rw [hrq] at hq; simp at hq
    | (none, cacheq, bq) =>
      have heq : cachedRead 10 w.files cache q = readLocalconfigCached w.files cache q := rfl
      have h1 : (cachedRead 10 w.files cache q).1 = none := by rw [heq, hrq]
      have h2 : cacheq = cache := by
        have h3 := cachedRead_none_state 10 w.files cache q h1
        rw [heq, hrq] at h3
        exact h3
      rw [h2] at hrq
      simp only [List.cons_append, setLoop, hrq]
      exact ih cache cache' p rest c u b (fun r hr => hpre r (by simp [hr])) hread hupd

theorem updateCache_write (w : SteamWorld) (p : FPath) (u : String) (wt : Nat)
    (cache' : CacheSt) :
    updateLocalconfigCache (writeFile w p u wt).files cache' p u
      = cacheInsert 10 cache' p u wt := by
  simp [updateLocalconfigCache, writeFile]

theorem readCached_after_write (w : SteamWorld) (p : FPath) (u : String) (wt : Nat)
    (cache' : CacheSt) :
    readLocalconfigCached (writeFile w p u wt).files (cacheInsert 10 cache' p u wt) p
      = (some u, cacheInsert 10 cache' p u wt, false) := by
  have hl := cacheInsert_lookup 10 (by omega) cache' p u wt
  simp [readLocalconfigCached, cachedRead, writeFile, hl]

theorem setVia_writeback (upd : String → Option String) (w : SteamWorld)
    (cache cache' : CacheSt) (wt : Nat) (pre rest : List FPath) (p : FPath)
    (c u : String) (b : Bool)
    (hsplit : findLocalconfigFiles w = pre ++ p :: rest)
    (hpre : ∀ q ∈ pre, (readLocalconfigCached w.files cache q).1 = none)
    (hread : readLocalconfigCached w.files cache p = (some c, cache', b))
    (hupd : upd c = some u) :
    setVia upd w cache wt = (.ok, writeFile w p u wt, cacheInsert 10 cache' p u wt, [p]) := by
  simp only [setVia]
  rw [hsplit]
  rw [setLoop_first upd wt w pre cache cache' p rest c u b hpre hread hupd]
  simp [updateCache_write]

/-- C8: a successful write-back updates exactly one settings file — the first
discovered file whose (cached) read succeeds and whose update completes — and
leaves every other settings file unchanged, while immediately pre-populating
the per-file cache entry for the written path with exactly the written
contents, so that the next cached read of that path returns the new contents
without a disk read; this holds for set_launch_options and for
set_compat_tool. -/
theorem set_writeback_frame (w : SteamWorld) (cache cache' : CacheSt) (appId wt : Nat)
    (value : String) (pre rest : List FPath) (p : FPath) (c u : String) (b : Bool) :
    (findLocalconfigFiles w = pre ++ p :: rest →
      (∀ q ∈ pre, (readLocalconfigCached w.files cache q).1 = none) →
      readLocalconfigCached w.files cache p = (some c, cache', b) →
      updateLaunchOptions c appId value = some u →
      setLaunchOptionsM w cache appId value wt
        = (.ok, writeFile w p u wt, cacheInsert 10 cache' p u wt, [p]) ∧
      (∀ q, q ≠ p → (writeFile w p u wt).files q = w.files q) ∧
      (writeFile w p u wt).files p = some ⟨some u, wt⟩ ∧
      lookupC (cacheInsert 10 cache' p u wt).cache p = some ⟨u, wt⟩ ∧
      readLocalconfigCached (writeFile w p u wt).files (cacheInsert 10 cache' p u wt) p
        = (some u, cacheInsert 10 cache' p u wt, false)) ∧
    (findLocalconfigFiles w = pre ++ p :: rest →
      (∀ q ∈ pre, (readLocalconfigCached w.files cache q).1 = none) →
      readLocalconfigCached w.files cache p = (some c, cache', b) →
      updateCompatTool c appId (some value) = some u →
      setCompatToolM w cache appId value wt
        = (.ok, writeFile w p u wt, cacheInsert 10 cache' p u wt, [p]) ∧
      (∀ q, q ≠ p → (writeFile w p u wt).files q = w.files q) ∧
      (writeFile w p u wt).files p = some ⟨some u, wt⟩ ∧
      lookupC (cacheInsert 10 cache' p u wt).cache p = some ⟨u, wt⟩ ∧
      readLocalconfigCached (writeFile w p u wt).files (cacheInsert 10 cache' p u wt) p
        = (some u, cacheInsert 10 cache' p u wt, false)) := by
  constructor
  · intro hsplit hpre hread hupd
    refine ⟨setVia_writeback _ w cache cache' wt pre rest p c u b hsplit hpre hread hupd,
      ?_, ?_, cacheInsert_lookup 10 (by omega) cache' p u wt,
      readCached_after_write w p u wt cache'⟩
    · intro q hq
      simp [writeFile, hq]
    · simp [writeFile]
  · intro hsplit hpre hread hupd
    refine ⟨setVia_writeback _ w cache cache' wt pre rest p c u b hsplit hpre hread hupd,
      ?_, ?_, cacheInsert_lookup 10 (by omega) cache' p u wt,
      readCached_after_write w p u wt cache'⟩
    · intro q hq
      simp [writeFile, hq]
    · simp [writeFile]

/-- C8 witness: in a world with one discovered settings file holding the
empty document, both writers write exactly that file and pre-populate its
cache entry with the written contents. -/
theorem set_writeback_frame_witness :
    setLaunchOptionsM
      ⟨[some "\"users\" \x7b \"111\" \x7b \"MostRecent\" \"1\" \x7d \x7d"],
        [⟨"ud", ["111"]⟩],
        fun p => if p = ["ud", "111", "config", "localconfig.vdf"]
          then some ⟨some "", 0⟩ else none⟩
      emptyCache 123 "-novid" 1
      = (.ok,
        writeFile
          ⟨[some "\"users\" \x7b \"111\" \x7b \"MostRecent\" \"1\" \x7d \x7d"],
            [⟨"ud", ["111"]⟩],
            fun p => if p = ["ud", "111", "config", "localconfig.vdf"]
              then some ⟨some "", 0⟩ else none⟩
          ["ud", "111", "config", "localconfig.vdf"]
          ((updateLaunchOptions "" 123 "-novid").getD "") 1,
        cacheInsert 10
          (cacheInsert 10 emptyCache ["ud", "111", "config", "localconfig.vdf"] "" 0)
          ["ud", "111", "config", "localconfig.vdf"]
          ((updateLaunchOptions "" 123 "-novid").getD "") 1,
        [["ud", "111", "config", "localconfig.vdf"]]) ∧
    setCompatToolM
      ⟨[some "\"users\" \x7b \"111\" \x7b \"MostRecent\" \"1\" \x7d \x7d"],
        [⟨"ud", ["111"]⟩],
        fun p => if p = ["ud", "111", "config", "localconfig.vdf"]
          then some ⟨some "", 0⟩ else none⟩
      emptyCache 123 "Proton 9" 1
      = (.ok,
        writeFile
          ⟨[some "\"users\" \x7b \"111\" \x7b \"MostRecent\" \"1\" \x7d \x7d"],
            [⟨"ud", ["111"]⟩],
            fun p => if p = ["ud", "111", "config", "localconfig.vdf"]
              then some ⟨some "", 0⟩ else none⟩
          ["ud", "111", "config", "localconfig.vdf"]
          ((updateCompatTool "" 123 (some "Proton 9")).getD "") 1,
        cacheInsert 10
          (cacheInsert 10 emptyCache ["ud", "111", "config", "localconfig.vdf"] "" 0)
          ["ud", "111", "config", "localconfig.vdf"]
          ((updateCompatTool "" 123 (some "Proton 9")).getD "") 1,
        [["ud", "111", "config", "localconfig.vdf"]]) :=
  ⟨((set_writeback_frame
      ⟨[some "\"users\" \x7b \"111\" \x7b \"MostRecent\" \"1\" \x7d \x7d"],
        [⟨"ud", ["111"]⟩],
        fun p => if p = ["ud", "111", "config", "localconfig.vdf"]
          then some ⟨some "", 0⟩ else none⟩
      emptyCache (cacheInsert 10 emptyCache ["ud", "111", "config", "localconfig.vdf"] "" 0)
      123 1 "-novid" [] [] ["ud", "111", "config", "localconfig.vdf"] ""
      ((updateLaunchOptions "" 123 "-novid").getD "") true).1
      (by rfl) (by intro q hq; simp at hq) (by rfl) (by rfl)).1,
    ((set_writeback_frame
      ⟨[some "\"users\" \x7b \"111\" \x7b \"MostRecent\" \"1\" \x7d \x7d"],
        [⟨"ud", ["111"]⟩],
        fun p => if p = ["ud", "111", "config", "localconfig.vdf"]
          then some ⟨some "", 0⟩ else none⟩
      emptyCache (cacheInsert 10 emptyCache ["ud", "111", "config", "localconfig.vdf"] "" 0)
      123 1 "Proton 9" [] [] ["ud", "111", "config", "localconfig.vdf"] ""
      ((updateCompatTool "" 123 (some "Proton 9")).getD "") true).2
      (by rfl) (by intro q hq; simp at hq) (by rfl) (by rfl)).1⟩

end PPM
